import Mathlib

/-!
# pfDeconv: command-line configuration and numeric utilities

A shallow embedding of `src/pfDeconvIO.cpp` and `src/utility.cpp`.

* The object state of the C++ class `PfDeconvIO` is a structure that is passed
  explicitly; every member function becomes a function from the state to a
  `Result`, which is either the state on normal return or the exception that
  was thrown together with the state at the throw point.
* `double` is idealised as exact arithmetic in a field (the rationals for the
  count tables). Where a statement depends on rounding, `calcLLK` is also
  given in an exact model of the finite doubles of IEEE 754 binary64.
* Undefined behaviour (dereferencing `argv_.end()`, indexing a vector past its
  end) is a separate outcome, `Err.OutOfRange`; it is never a normal return.
-/

namespace PfDeconv

/-! ## Errors -/

/-- Ways in which control can leave a member function other than by returning.
The first four are the C++ exceptions thrown in `pfDeconvIO.cpp`; the others
are outcomes of the embedding. -/
inductive Err where
  /-- The exception `UnknowArg(*argv_i)`. -/
  | UnknowArg (arg : String)
  /-- The exception `NotEnoughArg(tmpFlag)`. -/
  | NotEnoughArg (flag : String)
  /-- The exception `FileNameMissing(what)`. -/
  | FileNameMissing (what : String)
  /-- A thrown C string, `throw ("use panel?")`. -/
  | Message (text : String)
  /-- The value token of an integer flag did not convert (raised inside the
  absent helper `readNextInput`). -/
  | WrongType (arg : String)
  /-- An exception raised by the absent table reader `AtMarker`. -/
  | InvalidInput (text : String)
  /-- A failed `assert` in a build without `NDEBUG`. -/
  | AssertionFailed
  /-- Undefined behaviour: `*argv_i` or `++argv_i` at `argv_.end()`, or
  `operator[]` past the end of a vector. -/
  | OutOfRange
  /-- The embedding ran out of loop fuel (never with the fuel that `parse` and
  `finalize` supply). -/
  | OutOfFuel
  deriving DecidableEq, Repr

/-- The outcomes that are C++ exceptions (a fatal exit with a message), as
opposed to undefined behaviour or an artefact of the embedding. -/
def Err.isException : Err → Bool
  | .UnknowArg _ => true
  | .NotEnoughArg _ => true
  | .FileNameMissing _ => true
  | .Message _ => true
  | .WrongType _ => true
  | .InvalidInput _ => true
  | .AssertionFailed => false
  | .OutOfRange => false
  | .OutOfFuel => false

/-! ## Data model -/

/-- The table object built from one input file (class `AtMarker`, whose header
is not part of the sources at hand): one `info_` value per locus, the
chromosome names, and the positions grouped by chromosome. -/
structure AtMarker where
  info_ : List ℚ
  chrom_ : List String
  position_ : List (List Int)
  deriving DecidableEq, Repr

/-- The object state of class `PfDeconvIO`. The iterator `argv_i` into the
immutable vector `argv_` is represented by the tokens from its position up to
`argv_.end()`: it equals `argv_.end()` exactly when this list is empty,
`*argv_i` is its head and `++argv_i` drops the head. -/
structure PfDeconvIO where
  argv_ : List String
  argv_i : List String
  seed_set_ : Bool
  random_seed_ : Nat
  help_ : Bool
  usePanel_ : Bool
  precision_ : Nat
  prefix_ : String
  kStrain_ : Nat
  nMcmcSample_ : Nat
  mcmcMachineryRate_ : Nat
  compileTime_ : String
  pfDeconvVersion_ : String
  refFileName_ : String
  altFileName_ : String
  plafFileName_ : String
  panelFileName_ : String
  refCount_ : List ℚ
  altCount_ : List ℚ
  plaf_ : List ℚ
  chrom_ : List String
  position_ : List (List Int)
  indexOfChromStarts_ : List Nat
  nLoci_ : Nat
  strExportLLK : String
  strExportHap : String
  strExportProp : String
  strExportLog : String
  deriving DecidableEq, Repr

/-- Either the state on normal return, or the outcome that ended the call
together with the object state at that point. -/
abbrev Result := Except (Err × PfDeconvIO) PfDeconvIO

/-- The object right after its members are default-constructed and the first
two statements of the constructor have run: `argv_` holds the arguments after
the program name, `argv_i = argv_.begin()`, strings and vectors are empty.
The scalar members are not yet initialised in C++; `init` assigns all the ones
that are read later, so their value here is immaterial and taken as zero. -/
def fresh (args : List String) : PfDeconvIO :=
  { argv_ := args, argv_i := args,
    seed_set_ := false, random_seed_ := 0, help_ := false, usePanel_ := false,
    precision_ := 0, prefix_ := "", kStrain_ := 0, nMcmcSample_ := 0,
    mcmcMachineryRate_ := 0, compileTime_ := "", pfDeconvVersion_ := "",
    refFileName_ := "", altFileName_ := "", plafFileName_ := "",
    panelFileName_ := "", refCount_ := [], altCount_ := [], plaf_ := [],
    chrom_ := [], position_ := [], indexOfChromStarts_ := [], nLoci_ := 0,
    strExportLLK := "", strExportHap := "", strExportProp := "",
    strExportLog := "" }

/-! ## Accessors (one-line members of the absent header `pfDeconvIO.hpp`) -/

/-- Setter `set_seed`. -/
def set_seed (seed : Nat) (st : PfDeconvIO) : PfDeconvIO :=
  { st with random_seed_ := seed }

/-- Setter `set_help`. -/
def set_help (help : Bool) (st : PfDeconvIO) : PfDeconvIO :=
  { st with help_ := help }

/-- Setter `set_panel`. -/
def set_panel (usePanel : Bool) (st : PfDeconvIO) : PfDeconvIO :=
  { st with usePanel_ := usePanel }

/-- Getter `usePanel()`. -/
def usePanel (st : PfDeconvIO) : Bool := st.usePanel_

/-- Getter `help()`. -/
def help (st : PfDeconvIO) : Bool := st.help_

/-! ## `PfDeconvIO::init` -/

/-- `PfDeconvIO::init` (lines 49-71). The two preprocessor macros are
parameters: `none` when the macro is not defined. -/
def init (COMPILEDATE PFDECONVVERSION : Option String) (st : PfDeconvIO) :
    PfDeconvIO :=
  let st := { st with seed_set_ := false }
  let st := set_seed 0 st
  let st := set_help false st
  let st := set_panel true st
  let st := { st with precision_ := 8 }
  let st := { st with prefix_ := "pf3k-pfDeconv" }
  let st := { st with kStrain_ := 5 }
  let st := { st with nMcmcSample_ := 1000 }
  let st := { st with mcmcMachineryRate_ := 5 }
  let st := { st with compileTime_ := COMPILEDATE.getD "" }
  { st with pfDeconvVersion_ := PFDECONVVERSION.getD "" }

/-! ## Reading the value of a flag -/

/-- The test `(*argv_i)[0] == '-'`. On an empty `std::string`, `operator[](0)`
yields the terminating null character, so the test is false. -/
def beginsWithDash (s : String) : Bool :=
  match s.data with
  | [] => false
  | c :: _ => c == '-'

/-- `PfDeconvIO::readNextStringto` (lines 167-173). The reference parameter
`readto` is one of the string members; it is passed as the assignment to that
member. -/
def readNextStringto (readto : String → PfDeconvIO → PfDeconvIO)
    (st : PfDeconvIO) : Result :=
  match st.argv_i with
  | [] => .error (.OutOfRange, st)
  | tmpFlag :: rest =>
    let st := { st with argv_i := rest }
    match rest with
    | [] => .error (.NotEnoughArg tmpFlag, st)
    | next :: _ =>
      if beginsWithDash next then .error (.NotEnoughArg tmpFlag, st)
      else .ok (readto next st)

/-- Modelled from the spec: the member template `readNextInput<size_t>` is
defined in the absent header `pfDeconvIO.hpp`. It is modelled on its sibling
`readNextStringto` (spec, section 7: NotEnoughArg is a flag present without a
value): it steps to the next token, throws `NotEnoughArg` when there is none
or it begins with a dash, and otherwise stores the converted token. The
conversion from text to `size_t` is the parameter `convert`; a token that does
not convert is reported as `WrongType`. -/
def readNextInput (convert : String → Option Nat)
    (store : Nat → PfDeconvIO → PfDeconvIO) (st : PfDeconvIO) : Result :=
  match st.argv_i with
  | [] => .error (.OutOfRange, st)
  | tmpFlag :: rest =>
    let st := { st with argv_i := rest }
    match rest with
    | [] => .error (.NotEnoughArg tmpFlag, st)
    | next :: _ =>
      if beginsWithDash next then .error (.NotEnoughArg tmpFlag, st)
      else match convert next with
        | none => .error (.WrongType next, st)
        | some v => .ok (store v st)

/-! ## `PfDeconvIO::parse` -/

/-- The body of the `do ... while` loop of `PfDeconvIO::parse` (lines
117-150): the chain of comparisons of `*argv_i` with the flags. -/
def parseBody (convert : String → Option Nat) (st : PfDeconvIO) : Result :=
  match st.argv_i with
  | [] => .error (.OutOfRange, st)
  | tok :: _ =>
    if tok = "-ref" then
      readNextStringto (fun s t => { t with refFileName_ := s }) st
    else if tok = "-alt" then
      readNextStringto (fun s t => { t with altFileName_ := s }) st
    else if tok = "-plaf" then
      readNextStringto (fun s t => { t with plafFileName_ := s }) st
    else if tok = "-panel" then
      if usePanel st = false then .error (.Message "use panel?", st)
      else readNextStringto (fun s t => { t with panelFileName_ := s }) st
    else if tok = "-noPanel" then
      if usePanel st && decide (st.panelFileName_.length > 0) then
        .error (.Message "use panel?", st)
      else .ok (set_panel false st)
    else if tok = "-o" then
      readNextStringto (fun s t => { t with prefix_ := s }) st
    else if tok = "-p" then
      readNextInput convert (fun v t => { t with precision_ := v }) st
    else if tok = "-k" then
      readNextInput convert (fun v t => { t with kStrain_ := v }) st
    else if tok = "-nSample" then
      readNextInput convert (fun v t => { t with nMcmcSample_ := v }) st
    else if tok = "-rate" then
      readNextInput convert (fun v t => { t with mcmcMachineryRate_ := v }) st
    else if tok = "-seed" then
      match readNextInput convert (fun v t => { t with random_seed_ := v }) st with
      | .error e => .error e
      | .ok st => .ok { st with seed_set_ := true }
    else if tok = "-h" ∨ tok = "-help" then
      .ok (set_help true st)
    else
      .error (.UnknowArg tok, st)

/-- The `do ... while ( ++argv_i != argv_.end() )` loop of
`PfDeconvIO::parse`, with a bound on the number of iterations. -/
def parseLoop (convert : String → Option Nat) : Nat → PfDeconvIO → Result
  | 0, st => .error (.OutOfFuel, st)
  | fuel + 1, st =>
    match parseBody convert st with
    | .error e => .error e
    | .ok st =>
      match st.argv_i with
      | [] => .error (.OutOfRange, st)
      | _ :: rest =>
        let st := { st with argv_i := rest }
        if rest ≠ [] then parseLoop convert fuel st else .ok st

/-- `PfDeconvIO::parse` (lines 114-152). Every iteration moves the iterator
forward by at least one token, so one unit of fuel per remaining token (and
one for the first dereference) is enough. -/
def parse (convert : String → Option Nat) (st : PfDeconvIO) : Result :=
  parseLoop convert (st.argv_i.length + 1) st

/-! ## `PfDeconvIO::checkInput` -/

/-- `PfDeconvIO::checkInput` (lines 155-164). -/
def checkInput (st : PfDeconvIO) : Result :=
  if st.refFileName_.length = 0 then
    .error (.FileNameMissing "Ref count", st)
  else if st.altFileName_.length = 0 then
    .error (.FileNameMissing "Alt count", st)
  else if st.plafFileName_.length = 0 then
    .error (.FileNameMissing "PLAF", st)
  else if usePanel st && decide (st.panelFileName_.length = 0) then
    .error (.FileNameMissing "Reference panel", st)
  else .ok st

/-! ## `PfDeconvIO::finalize` -/

/-- The macro `assert(cond)` of `<cassert>`: nothing when `NDEBUG` is defined,
otherwise the program aborts when the condition is false. -/
def cassert (NDEBUG : Bool) (cond : Bool) (st : PfDeconvIO) : Result :=
  if NDEBUG || cond then .ok st else .error (.AssertionFailed, st)

/-- The `for` loop of `PfDeconvIO::finalize` (lines 89-91), with a bound on
the number of iterations:
`push_back(indexOfChromStarts_.back() + position_[indexOfChromStarts_.size()].size())`
while `indexOfChromStarts_.size() < chrom_.size()`. -/
def finalizeLoop : Nat → PfDeconvIO → Result
  | 0, st => .error (.OutOfFuel, st)
  | fuel + 1, st =>
    if st.indexOfChromStarts_.length < st.chrom_.length then
      match st.indexOfChromStarts_.getLast?,
        st.position_.get? st.indexOfChromStarts_.length with
      | some back, some pos =>
        finalizeLoop fuel
          { st with indexOfChromStarts_ :=
              st.indexOfChromStarts_ ++ [back + pos.length] }
      | _, _ => .error (.OutOfRange, st)
    else .ok st

/-- `PfDeconvIO::removeFilesWithSameName` (lines 101-111); the deletion of the
four files on disk is outside the state. -/
def removeFilesWithSameName (st : PfDeconvIO) : PfDeconvIO :=
  let st := { st with strExportLLK := st.prefix_ ++ ".llk" }
  let st := { st with strExportHap := st.prefix_ ++ ".hap" }
  let st := { st with strExportProp := st.prefix_ ++ ".prop" }
  { st with strExportLog := st.prefix_ ++ ".log" }

/-- `PfDeconvIO::finalize` (lines 74-98). Reading a table file is the
parameter `readAtMarker` (the constructor of the absent class `AtMarker`),
which yields the table or throws. Each iteration of the loop appends one
entry, so `chrom_.size() + 1` units of fuel are enough. -/
def finalize (NDEBUG : Bool) (readAtMarker : String → Except Err AtMarker)
    (st : PfDeconvIO) : Result :=
  match readAtMarker st.refFileName_ with
  | .error e => .error (e, st)
  | .ok ref =>
  let st := { st with refCount_ := ref.info_ }
  match readAtMarker st.altFileName_ with
  | .error e => .error (e, st)
  | .ok alt =>
  let st := { st with altCount_ := alt.info_ }
  match readAtMarker st.plafFileName_ with
  | .error e => .error (e, st)
  | .ok plaf =>
  let st := { st with plaf_ := plaf.info_ }
  let st := { st with chrom_ := plaf.chrom_ }
  let st := { st with position_ := plaf.position_ }
  match cassert NDEBUG (st.indexOfChromStarts_.length == 0) st with
  | .error e => .error e
  | .ok st =>
  let st := { st with indexOfChromStarts_ := st.indexOfChromStarts_ ++ [0] }
  match finalizeLoop (st.chrom_.length + 1) st with
  | .error e => .error e
  | .ok st =>
  match cassert NDEBUG (st.indexOfChromStarts_.length == st.chrom_.length) st with
  | .error e => .error e
  | .ok st =>
  let st := { st with nLoci_ := st.refCount_.length }
  match cassert NDEBUG (st.nLoci_ == st.plaf_.length) st with
  | .error e => .error e
  | .ok st =>
  match cassert NDEBUG (st.altCount_.length == st.nLoci_) st with
  | .error e => .error e
  | .ok st => .ok (removeFilesWithSameName st)

/-! ## The constructor -/

/-- The constructor `PfDeconvIO::PfDeconvIO(int argc, char *argv[])` (lines
33-46); `args` are the command-line tokens after the program name. -/
def PfDeconvIO_ctor (NDEBUG : Bool)
    (COMPILEDATE PFDECONVVERSION : Option String)
    (convert : String → Option Nat)
    (readAtMarker : String → Except Err AtMarker)
    (args : List String) : Result :=
  let st := fresh args
  let st := init COMPILEDATE PFDECONVVERSION st
  if st.argv_.length = 0 then
    .ok (set_help true st)
  else
    match parse convert st with
    | .error e => .error e
    | .ok st =>
    match checkInput st with
    | .error e => .error e
    | .ok st => finalize NDEBUG readAtMarker st

/-! ## `utility.cpp`: the Beta-Binomial log-likelihood -/

/-- `calcLLK` (utility.cpp, lines 97-112). The function
`Maths::Special::Gamma::logBeta` of the absent header `logbeta.h` is the
parameter `logBeta`. -/
def calcLLK {R : Type} [Field R] (logBeta : R → R → R)
    (ref alt unadjustedWsaf err fac : R) : R :=
  let adjustedWsaf := unadjustedWsaf + err * (1 - 2 * unadjustedWsaf)
  let llk := logBeta (alt + adjustedWsaf * fac) (ref + (1 - adjustedWsaf) * fac)
    - logBeta (adjustedWsaf * fac) ((1 - adjustedWsaf) * fac)
  llk

/-- The formula of the specification (section 4.1),
`beta_binom_llk(r, a, w; err, fac)`: with `w1 = w + err·(1 − 2w)` it is
`log_beta(a + w1·fac, r + (1−w1)·fac) − log_beta(w1·fac, (1−w1)·fac)`. -/
def beta_binom_llk {R : Type} [Field R] (log_beta : R → R → R)
    (r a w err fac : R) : R :=
  let w1 := w + err * (1 - 2 * w)
  log_beta (a + w1 * fac) (r + (1 - w1) * fac) - log_beta (w1 * fac) ((1 - w1) * fac)

/-! ## `utility.cpp`: sums, normalisation, cumulative sums

`double` is idealised as exact arithmetic in a field `R`. Division in `R`
agrees with division of doubles only for a divisor other than zero; every
statement below about a quotient carries that condition. -/

/-- `computeCdf` (utility.cpp, lines 28-38): the loop adds `dist[i]` to
`cumsum` and appends the new `cumsum` to `cdf`, for `i` from `0` to
`dist.size() - 1`; then `assert( cdf.size() == dist.size() )`. The loop state
is the pair `(cumsum, cdf)`. -/
def computeCdf {R : Type} [Field R] (NDEBUG : Bool) (dist : List R) :
    Except Err (List R) :=
  let loop := dist.foldl
    (fun (state : R × List R) (x : R) => (state.1 + x, state.2 ++ [state.1 + x]))
    (0, [])
  let cdf := loop.2
  if NDEBUG || cdf.length == dist.length then .ok cdf else .error .AssertionFailed

/-- `sumOfVec` (utility.cpp, lines 41-47). -/
def sumOfVec {R : Type} [Field R] (array : List R) : R :=
  array.foldl (fun tmp value => tmp + value) 0

/-- `sumOfMat` (utility.cpp, lines 50-58): one accumulator `tmp` runs through
all rows. -/
def sumOfMat {R : Type} [Field R] (matrix : List (List R)) : R :=
  matrix.foldl (fun tmp array => array.foldl (fun tmp value => tmp + value) tmp) 0

/-- `normalizeBySum` (utility.cpp, lines 61-66). The vector is modified in
place; the value is the vector after the call. There is no test of the sum
and no `throw`. -/
def normalizeBySum {R : Type} [Field R] (array : List R) : List R :=
  let sumOfArray := sumOfVec array
  array.map (fun x => x / sumOfArray)

/-- `normalizeBySumMat` (utility.cpp, lines 68-75). The matrix is modified in
place; the value is the matrix after the call. There is no test of the sum
and no `throw`. -/
def normalizeBySumMat {R : Type} [Field R] (matrix : List (List R)) : List (List R) :=
  let tmpsum := sumOfMat matrix
  matrix.map (fun row => row.map (fun x => x / tmpsum))

/-! ## `utility.cpp`: `calcLLKs` -/

/-- Modelled from the spec: the default value of the parameter `err` of
`calcLLK` is declared in the absent header `utility.hpp`; the specification
(section 4.1) gives `err=0.01`. -/
def defaultErr {R : Type} [Field R] : R := 1 / 100

/-- Modelled from the spec: the default value of the parameter `fac` of
`calcLLK` is declared in the absent header `utility.hpp`; the specification
(section 4.1) gives `fac=100`. -/
def defaultFac {R : Type} [Field R] : R := 100

/-- The variables of `calcLLKs`: the three vectors passed by reference, the
local vector `tmpLLKs`, and the counters `index` and `i`. -/
structure CalcLLKsFrame (R : Type) where
  refCount : List R
  altCount : List R
  expectedWsaf : List R
  tmpLLKs : List R
  index : Nat
  i : Nat

/-- The `for` loop of `calcLLKs` (utility.cpp, lines 82-92), with a bound on
the number of iterations. Each pass evaluates
`assert (expectedWsaf[index] >= 0)`, then assigns
`calcLLK(refCount[index], altCount[index], expectedWsaf[index])` to
`tmpLLKs[i]` and increments `index`. An index past the end of a vector is
undefined behaviour. -/
def calcLLKsLoop {R : Type} [LinearOrderedField R] (NDEBUG : Bool)
    (logBeta : R → R → R) (length : Nat) :
    Nat → CalcLLKsFrame R → Except Err (CalcLLKsFrame R)
  | 0, _ => .error .OutOfFuel
  | fuel + 1, fr =>
    if fr.i < length then
      match fr.expectedWsaf.get? fr.index with
      | none => .error .OutOfRange
      | some w =>
        if !(NDEBUG || decide (w ≥ 0)) then .error .AssertionFailed
        else
          match fr.refCount.get? fr.index, fr.altCount.get? fr.index with
          | some r, some a =>
            if fr.i < fr.tmpLLKs.length then
              calcLLKsLoop NDEBUG logBeta length fuel
                { fr with
                  tmpLLKs := fr.tmpLLKs.set fr.i (calcLLK logBeta r a w defaultErr defaultFac)
                  index := fr.index + 1
                  i := fr.i + 1 }
            else .error .OutOfRange
          | _, _ => .error .OutOfRange
    else .ok fr

/-- `calcLLKs` (utility.cpp, lines 79-94). The value is the frame at the
`return` statement: the returned vector is its `tmpLLKs`, and its first three
fields are the vectors that were passed by reference, as the call leaves
them. The loop runs `length` times, so `length + 1` units of fuel are
enough. -/
def calcLLKs {R : Type} [LinearOrderedField R] (NDEBUG : Bool) (logBeta : R → R → R)
    (refCount altCount expectedWsaf : List R) (firstIndex length : Nat) :
    Except Err (CalcLLKsFrame R) :=
  calcLLKsLoop NDEBUG logBeta length (length + 1)
    { refCount := refCount, altCount := altCount, expectedWsaf := expectedWsaf,
      tmpLLKs := List.replicate length 0, index := firstIndex, i := 0 }

/-! ## `double` arithmetic

The functions of `utility.cpp` compute in `double`. Besides the idealisation
by exact arithmetic above, finite doubles are modelled exactly: IEEE 754
binary64 with the default rounding, to nearest with ties to even. Every
result that is not a finite double (overflow, infinities, NaN) is `none`. The
sign of zero is not represented. -/

/-- A finite double `m * 2^e` in the form of IEEE 754 binary64: a normal
number has `2^52 ≤ |m| < 2^53` and `-1074 ≤ e ≤ 971`, a subnormal number has
`|m| < 2^52` and `e = -1074`, and zero is `0 * 2^-1074`. In this form equal
values have equal representations. -/
structure FiniteDouble where
  m : Int
  e : Int
  deriving DecidableEq, Repr

/-- A value of type `double`: a finite double, or `none` for the values that
are not finite. -/
abbrev Double := Option FiniteDouble

/-- The number of binary digits of `n`, by halving; `fuel` bounds the number
of halvings, and `fuel = n` is always enough. -/
def bitLength : Nat → Nat → Nat
  | 0, _ => 0
  | fuel + 1, n => if n = 0 then 0 else bitLength fuel (n / 2) + 1

/-- The integer `e` with `2^e ≤ a / q < 2^(e+1)`, for `a > 0` and `q > 0`. It
is the difference of the numbers of binary digits of `a` and `q`, or one
less. -/
def floorLog2 (a q : Nat) : Int :=
  let e0 : Int := (bitLength a a : Int) - (bitLength q q : Int)
  if 0 ≤ e0 then
    if q * 2 ^ e0.toNat ≤ a then e0 else e0 - 1
  else
    if q ≤ a * 2 ^ (-e0).toNat then e0 else e0 - 1

/-- The fraction `N / D` (`D > 0`) rounded to the nearest integer, a tie to
the even one. -/
def roundNearestEven (N D : Nat) : Nat :=
  let q := N / D
  let r := N % D
  if 2 * r > D ∨ (2 * r = D ∧ q % 2 = 1) then q + 1 else q

/-- The double nearest to the fraction `a / q` (`q > 0`), negated when
`negative`. With `2^e ≤ a / q < 2^(e+1)` the spacing of the doubles there is
`2^u`, `u = max (e - 52) (-1074)` (53 significant bits, or the subnormal
spacing); `a / q` is rounded to a multiple `m * 2^u`, a tie to the even `m`;
when rounding carries to `m = 2^53` the result is `2^52 * 2^(u+1)`; a result
of `2^1024` or more is not finite. -/
def roundToDouble (negative : Bool) (a q : Nat) : Double :=
  if a = 0 then some { m := 0, e := -1074 }
  else
    let e := floorLog2 a q
    let u := max (e - 52) (-1074)
    let m :=
      if 0 ≤ u then roundNearestEven a (q * 2 ^ u.toNat)
      else roundNearestEven (a * 2 ^ (-u).toNat) q
    let m1 := if m = 2 ^ 53 then 2 ^ 52 else m
    let u1 := if m = 2 ^ 53 then u + 1 else u
    if 971 < u1 then none
    else some { m := if negative then -(m1 : Int) else (m1 : Int), e := u1 }

/-- The double nearest to the exact value `k * 2^e`. -/
def roundScaled (k : Int) (e : Int) : Double :=
  if 0 ≤ e then roundToDouble (decide (k < 0)) (k.natAbs * 2 ^ e.toNat) 1
  else roundToDouble (decide (k < 0)) k.natAbs (2 ^ (-e).toNat)

/-- The double written as the decimal literal `p / q`, or the conversion of
the integer `p` when `q = 1`. -/
def Double.lit (p q : Nat) : Double := roundToDouble false p q

/-- Addition of doubles: the exact sum, rounded. -/
def Double.add (x y : Double) : Double :=
  match x, y with
  | some a, some b =>
    roundScaled (a.m * 2 ^ (a.e - min a.e b.e).toNat + b.m * 2 ^ (b.e - min a.e b.e).toNat)
      (min a.e b.e)
  | _, _ => none

/-- Subtraction of doubles: the exact difference, rounded. -/
def Double.sub (x y : Double) : Double :=
  match x, y with
  | some a, some b =>
    roundScaled (a.m * 2 ^ (a.e - min a.e b.e).toNat - b.m * 2 ^ (b.e - min a.e b.e).toNat)
      (min a.e b.e)
  | _, _ => none

/-- Multiplication of doubles: the exact product, rounded. -/
def Double.mul (x y : Double) : Double :=
  match x, y with
  | some a, some b => roundScaled (a.m * b.m) (a.e + b.e)
  | _, _ => none

/-- `calcLLK` (utility.cpp, lines 97-112) in `double` arithmetic: the same
expressions as in `calcLLK`, every operation rounded. The integer constants
`1` and `2` of line 99 are converted to `double`. -/
def calcLLK_double (logBeta : Double → Double → Double)
    (ref alt unadjustedWsaf err fac : Double) : Double :=
  let adjustedWsaf := Double.add unadjustedWsaf
    (Double.mul err (Double.sub (Double.lit 1 1) (Double.mul (Double.lit 2 1) unadjustedWsaf)))
  let llk := Double.sub
    (logBeta (Double.add alt (Double.mul adjustedWsaf fac))
      (Double.add ref (Double.mul (Double.sub (Double.lit 1 1) adjustedWsaf) fac)))
    (logBeta (Double.mul adjustedWsaf fac)
      (Double.mul (Double.sub (Double.lit 1 1) adjustedWsaf) fac))
  llk

/-! ## Vocabulary of the statements -/

/-- The thirteen tokens that `parse` recognises as flags. -/
def recognisedFlags : List String :=
  ["-ref", "-alt", "-plaf", "-panel", "-noPanel", "-o", "-p", "-k", "-nSample",
   "-rate", "-seed", "-h", "-help"]

/-- The number of loci on the chromosomes before chromosome `s`:
the sum of `position_[c].size()` for `c < s`. -/
def lociBefore (position_ : List (List Int)) (s : Nat) : Nat :=
  ((position_.take s).map List.length).sum

/-- The flags that change a setting which has a default value. -/
def settingFlags : List String :=
  ["-o", "-p", "-k", "-nSample", "-rate", "-noPanel", "-seed", "-h", "-help"]

/-- No `-panel` token is directly followed by the empty token. -/
def panelValuesNonEmpty : List String → Bool
  | [] => true
  | a :: rest =>
    !(a == "-panel" && rest.head? == some "") && panelValuesNonEmpty rest

/-- The states at the head of the loop of `parse` from which the loop cannot
return normally: a `-noPanel` is still to come while a panel is in use and
named (or a `-panel` is still to come as well), or a `-panel` is still to come
after panel use was switched off. -/
def panelConflict (s : PfDeconvIO) : Prop :=
  panelValuesNonEmpty s.argv_i = true ∧
  (("-noPanel" ∈ s.argv_i ∧ s.usePanel_ = true ∧
      (s.panelFileName_ ≠ "" ∨ "-panel" ∈ s.argv_i)) ∨
   ("-panel" ∈ s.argv_i ∧ s.usePanel_ = false))

/-- The argument list made of the given (flag, value) pairs, in order. -/
def flagValueArgs : List (String × String) → List String
  | [] => []
  | (f, v) :: ps => f :: v :: flagValueArgs ps

/-- The value that follows the last occurrence of `flag` among the pairs, or
`initial` when the flag does not occur. -/
def lastValue (flag : String) (initial : String) (pairs : List (String × String)) :
    String :=
  match (pairs.filter (fun p => p.1 == flag)).getLast? with
  | some p => p.2
  | none => initial

/-- The flags whose value is stored in a string member. -/
def stringFlags : List String := ["-ref", "-alt", "-plaf", "-panel", "-o"]

/-- The state expected after parsing the given (flag, value) pairs from state
`s`: each of the five string members holds the value after the last
occurrence of its flag, or what it held in `s`; the iterator is at the end;
everything else is as in `s`. -/
def afterPairs (s : PfDeconvIO) (pairs : List (String × String)) : PfDeconvIO :=
  { s with
    argv_i := []
    refFileName_ := lastValue "-ref" s.refFileName_ pairs
    altFileName_ := lastValue "-alt" s.altFileName_ pairs
    plafFileName_ := lastValue "-plaf" s.plafFileName_ pairs
    panelFileName_ := lastValue "-panel" s.panelFileName_ pairs
    prefix_ := lastValue "-o" s.prefix_ pairs }

/-- Every occurrence of `flag` in the list is followed by a token that is not
empty and does not begin with a dash. -/
def valuesOk (flag : String) : List String → Bool
  | [] => true
  | [a] => a != flag
  | a :: b :: rest =>
    (a != flag || (b != "" && !beginsWithDash b)) && valuesOk flag (b :: rest)

/-- The argument list supplies `flag` with a non-empty value: the flag occurs,
and each occurrence is followed by a non-empty token that does not begin with
a dash. -/
def supplies (flag : String) (args : List String) : Bool :=
  args.contains flag && valuesOk flag args

/-- The file-name member that belongs to one of the three required flags. -/
def fileNameOf (flag : String) (s : PfDeconvIO) : String :=
  if flag = "-ref" then s.refFileName_
  else if flag = "-alt" then s.altFileName_
  else s.plafFileName_

/-- Loop invariant: the member of a required flag is already non-empty, or the
flag is still to come with a non-empty value. -/
def fileNamePending (flag : String) (s : PfDeconvIO) : Prop :=
  valuesOk flag s.argv_i = true ∧ (fileNameOf flag s ≠ "" ∨ flag ∈ s.argv_i)

/-- Loop invariant for an argument list without `-panel`: no panel is ever
named, and panel use is off exactly when a `-noPanel` has been passed; `NP`
stands for the presence of `-noPanel` in the whole argument list. -/
def panelAbsent (NP : Prop) (s : PfDeconvIO) : Prop :=
  "-panel" ∉ s.argv_i ∧ s.panelFileName_ = "" ∧
  ((s.usePanel_ = false ∧ NP) ∨ (s.usePanel_ = true ∧ (NP ↔ "-noPanel" ∈ s.argv_i)))

/-- The running sums `back + s₁`, `back + s₁ + s₂`, ... of a list of sizes. -/
def runningStarts (back : Nat) : List Nat → List Nat
  | [] => []
  | s :: rest => (back + s) :: runningStarts (back + s) rest

/-- The sequence that the statements of `finalize` at lines 87-91 build from
an empty `indexOfChromStarts_` when there are `nChrom` chromosomes: `0`, then
the running sums of the sizes of `position_[1]`, ..., `position_[nChrom - 1]`. -/
def builtStarts (position_ : List (List Int)) (nChrom : Nat) : List Nat :=
  0 :: runningStarts 0 (((position_.drop 1).take (nChrom - 1)).map List.length)

/-- The total number of positions in the table, over all chromosomes. -/
def totalPositions (position_ : List (List Int)) : Nat :=
  (position_.map List.length).sum

/-! ## Lemmas about the loop of `parse` -/

/-- A string has `size() == 0` exactly when it is the empty string. -/
theorem String_length_eq_zero (s : String) : s.length = 0 ↔ s = "" := by
  cases s with
  | mk data =>
    constructor
    · intro h
      have : data = [] := List.length_eq_zero.mp h
      subst this; rfl
    · intro h
      rw [h]; rfl

/-- A normal return of `readNextStringto`: the iterator stood on a flag followed
by a token `v` that does not begin with a dash, it now stands on `v`, and `v`
was assigned. -/
theorem readNextStringto_ok (readto : String → PfDeconvIO → PfDeconvIO)
    (st st1 : PfDeconvIO) (h : readNextStringto readto st = .ok st1) :
    ∃ tok v rest1, st.argv_i = tok :: v :: rest1 ∧ beginsWithDash v = false ∧
      st1 = readto v { st with argv_i := v :: rest1 } := by
  unfold readNextStringto at h
  cases hpos : st.argv_i with
  | nil => simp [hpos] at h
  | cons tok rest =>
    cases rest with
    | nil => simp [hpos] at h
    | cons v rest1 =>
      by_cases hv : beginsWithDash v = true
      · simp [hpos, hv] at h
      · simp [hpos, hv] at h
        exact ⟨tok, v, rest1, rfl, by simpa using hv, h.symm⟩

/-- A normal return of `readNextInput`: as for `readNextStringto`, and the token
converted to the number that was stored. -/
theorem readNextInput_ok (convert : String → Option Nat)
    (store : Nat → PfDeconvIO → PfDeconvIO)
    (st st1 : PfDeconvIO) (h : readNextInput convert store st = .ok st1) :
    ∃ tok v rest1 n, st.argv_i = tok :: v :: rest1 ∧ beginsWithDash v = false ∧
      convert v = some n ∧ st1 = store n { st with argv_i := v :: rest1 } := by
  unfold readNextInput at h
  cases hpos : st.argv_i with
  | nil => simp [hpos] at h
  | cons tok rest =>
    cases rest with
    | nil => simp [hpos] at h
    | cons v rest1 =>
      by_cases hv : beginsWithDash v = true
      · simp [hpos, hv] at h
      · cases hc : convert v with
        | none => simp [hpos, hv, hc] at h
        | some n =>
          simp [hpos, hv, hc] at h
          exact ⟨tok, v, rest1, n, rfl, by simpa using hv, hc, h.symm⟩

/-- What a normally returning pass through the loop body has done: it stood on a
flag `tok`; either the flag takes a value `v`, the iterator now stands on `v`
and one member was assigned, or the flag is bare and only a switch was set. -/
theorem parseBody_ok (convert : String → Option Nat) (st st1 : PfDeconvIO)
    (h : parseBody convert st = .ok st1) :
    ∃ tok rest, st.argv_i = tok :: rest ∧
      ((∃ v rest1, rest = v :: rest1 ∧ beginsWithDash v = false ∧
          ((tok = "-ref" ∧ st1 = { st with argv_i := rest, refFileName_ := v }) ∨
           (tok = "-alt" ∧ st1 = { st with argv_i := rest, altFileName_ := v }) ∨
           (tok = "-plaf" ∧ st1 = { st with argv_i := rest, plafFileName_ := v }) ∨
           (tok = "-panel" ∧ st.usePanel_ = true ∧
              st1 = { st with argv_i := rest, panelFileName_ := v }) ∨
           (tok = "-o" ∧ st1 = { st with argv_i := rest, prefix_ := v }) ∨
           (tok = "-p" ∧ ∃ n, convert v = some n ∧
              st1 = { st with argv_i := rest, precision_ := n }) ∨
           (tok = "-k" ∧ ∃ n, convert v = some n ∧
              st1 = { st with argv_i := rest, kStrain_ := n }) ∨
           (tok = "-nSample" ∧ ∃ n, convert v = some n ∧
              st1 = { st with argv_i := rest, nMcmcSample_ := n }) ∨
           (tok = "-rate" ∧ ∃ n, convert v = some n ∧
              st1 = { st with argv_i := rest, mcmcMachineryRate_ := n }) ∨
           (tok = "-seed" ∧ ∃ n, convert v = some n ∧
              st1 = { st with argv_i := rest, random_seed_ := n, seed_set_ := true }))) ∨
       (tok = "-noPanel" ∧ (st.usePanel_ = false ∨ st.panelFileName_ = "") ∧
          st1 = { st with usePanel_ := false }) ∨
       ((tok = "-h" ∨ tok = "-help") ∧ st1 = { st with help_ := true })) := by
  have hex : st.argv_i = [] ∨ ∃ tok rest, st.argv_i = tok :: rest := by
    cases st.argv_i with
    | nil => exact Or.inl rfl
    | cons a l => exact Or.inr ⟨a, l, rfl⟩
  rcases hex with hpos | ⟨tok, rest, hpos⟩
  · simp [parseBody, hpos] at h
  · refine ⟨tok, rest, hpos, ?_⟩
    by_cases h1 : tok = "-ref"
    · simp only [parseBody, hpos] at h
      rw [if_pos h1] at h
      obtain ⟨t, v, r1, hp, hv, hs⟩ := readNextStringto_ok _ _ _ h
      rw [hpos] at hp
      obtain ⟨-, rfl⟩ := List.cons.inj hp
      exact Or.inl ⟨v, r1, rfl, hv, Or.inl ⟨h1, hs⟩⟩
    by_cases h2 : tok = "-alt"
    · simp only [parseBody, hpos] at h
      rw [if_neg h1, if_pos h2] at h
      obtain ⟨t, v, r1, hp, hv, hs⟩ := readNextStringto_ok _ _ _ h
      rw [hpos] at hp
      obtain ⟨-, rfl⟩ := List.cons.inj hp
      exact Or.inl ⟨v, r1, rfl, hv, Or.inr (Or.inl ⟨h2, hs⟩)⟩
    by_cases h3 : tok = "-plaf"
    · simp only [parseBody, hpos] at h
      rw [if_neg h1, if_neg h2, if_pos h3] at h
      obtain ⟨t, v, r1, hp, hv, hs⟩ := readNextStringto_ok _ _ _ h
      rw [hpos] at hp
      obtain ⟨-, rfl⟩ := List.cons.inj hp
      exact Or.inl ⟨v, r1, rfl, hv, Or.inr (Or.inr (Or.inl ⟨h3, hs⟩))⟩
    by_cases h4 : tok = "-panel"
    · simp only [parseBody, hpos] at h
      rw [if_neg h1, if_neg h2, if_neg h3, if_pos h4] at h
      by_cases hu : usePanel st = false
      · simp [hu] at h
      · rw [if_neg hu] at h
        obtain ⟨t, v, r1, hp, hv, hs⟩ := readNextStringto_ok _ _ _ h
        rw [hpos] at hp
        obtain ⟨-, rfl⟩ := List.cons.inj hp
        have hu1 : st.usePanel_ = true := by simpa [usePanel] using hu
        exact Or.inl ⟨v, r1, rfl, hv, Or.inr (Or.inr (Or.inr (Or.inl ⟨h4, hu1, hs⟩)))⟩
    by_cases h5 : tok = "-noPanel"
    · simp only [parseBody, hpos] at h
      rw [if_neg h1, if_neg h2, if_neg h3, if_neg h4, if_pos h5] at h
      by_cases hc : (usePanel st && decide (st.panelFileName_.length > 0)) = true
      · simp [hc] at h
      · rw [if_neg hc] at h
        have hs : st1 = { st with usePanel_ := false } := by
          simpa [set_panel] using (Except.ok.inj h).symm
        refine Or.inr (Or.inl ⟨h5, ?_, hs⟩)
        simp only [usePanel, Bool.and_eq_true, decide_eq_true_eq, not_and, not_lt,
          Nat.le_zero] at hc
        by_cases hu : st.usePanel_ = true
        · exact Or.inr ((String_length_eq_zero _).mp (by simpa using hc hu))
        · exact Or.inl (by simpa using hu)
    by_cases h6 : tok = "-o"
    · simp only [parseBody, hpos] at h
      rw [if_neg h1, if_neg h2, if_neg h3, if_neg h4, if_neg h5, if_pos h6] at h
      obtain ⟨t, v, r1, hp, hv, hs⟩ := readNextStringto_ok _ _ _ h
      rw [hpos] at hp
      obtain ⟨-, rfl⟩ := List.cons.inj hp
      exact Or.inl ⟨v, r1, rfl, hv,
        Or.inr (Or.inr (Or.inr (Or.inr (Or.inl ⟨h6, hs⟩))))⟩
    by_cases h7 : tok = "-p"
    · simp only [parseBody, hpos] at h
      rw [if_neg h1, if_neg h2, if_neg h3, if_neg h4, if_neg h5, if_neg h6, if_pos h7] at h
      obtain ⟨t, v, r1, n, hp, hv, hn, hs⟩ := readNextInput_ok _ _ _ _ h
      rw [hpos] at hp
      obtain ⟨-, rfl⟩ := List.cons.inj hp
      exact Or.inl ⟨v, r1, rfl, hv,
        Or.inr (Or.inr (Or.inr (Or.inr (Or.inr (Or.inl ⟨h7, n, hn, hs⟩)))))⟩
    by_cases h8 : tok = "-k"
    · simp only [parseBody, hpos] at h
      rw [if_neg h1, if_neg h2, if_neg h3, if_neg h4, if_neg h5, if_neg h6, if_neg h7, if_pos h8] at h
      obtain ⟨t, v, r1, n, hp, hv, hn, hs⟩ := readNextInput_ok _ _ _ _ h
      rw [hpos] at hp
      obtain ⟨-, rfl⟩ := List.cons.inj hp
      exact Or.inl ⟨v, r1, rfl, hv,
        Or.inr (Or.inr (Or.inr (Or.inr (Or.inr (Or.inr (Or.inl ⟨h8, n, hn, hs⟩))))))⟩
    by_cases h9 : tok = "-nSample"
    · simp only [parseBody, hpos] at h
      rw [if_neg h1, if_neg h2, if_neg h3, if_neg h4, if_neg h5, if_neg h6, if_neg h7, if_neg h8, if_pos h9] at h
      obtain ⟨t, v, r1, n, hp, hv, hn, hs⟩ := readNextInput_ok _ _ _ _ h
      rw [hpos] at hp
      obtain ⟨-, rfl⟩ := List.cons.inj hp
      exact Or.inl ⟨v, r1, rfl, hv,
        Or.inr (Or.inr (Or.inr (Or.inr (Or.inr (Or.inr (Or.inr
          (Or.inl ⟨h9, n, hn, hs⟩)))))))⟩
    by_cases h10 : tok = "-rate"
    · simp only [parseBody, hpos] at h
      rw [if_neg h1, if_neg h2, if_neg h3, if_neg h4, if_neg h5, if_neg h6, if_neg h7, if_neg h8, if_neg h9, if_pos h10] at h
      obtain ⟨t, v, r1, n, hp, hv, hn, hs⟩ := readNextInput_ok _ _ _ _ h
      rw [hpos] at hp
      obtain ⟨-, rfl⟩ := List.cons.inj hp
      exact Or.inl ⟨v, r1, rfl, hv,
        Or.inr (Or.inr (Or.inr (Or.inr (Or.inr (Or.inr (Or.inr (Or.inr
          (Or.inl ⟨h10, n, hn, hs⟩))))))))⟩
    by_cases h11 : tok = "-seed"
    · simp only [parseBody, hpos] at h
      rw [if_neg h1, if_neg h2, if_neg h3, if_neg h4, if_neg h5, if_neg h6, if_neg h7, if_neg h8, if_neg h9, if_neg h10, if_pos h11] at h
      cases hr : readNextInput convert
          (fun v t => { t with random_seed_ := v }) st with
      | error e => simp [hr] at h
      | ok st2 =>
        simp only [hr] at h
        obtain ⟨t, v, r1, n, hp, hv, hn, hs⟩ := readNextInput_ok _ _ _ _ hr
        rw [hpos] at hp
        obtain ⟨-, rfl⟩ := List.cons.inj hp
        have hs1 : st1 = { st2 with seed_set_ := true } := (Except.ok.inj h).symm
        refine Or.inl ⟨v, r1, rfl, hv,
          Or.inr (Or.inr (Or.inr (Or.inr (Or.inr (Or.inr (Or.inr (Or.inr
            (Or.inr ⟨h11, n, hn, ?_⟩))))))))⟩
        rw [hs1, hs]
    by_cases h12 : tok = "-h" ∨ tok = "-help"
    · simp only [parseBody, hpos] at h
      rw [if_neg h1, if_neg h2, if_neg h3, if_neg h4, if_neg h5, if_neg h6, if_neg h7, if_neg h8, if_neg h9, if_neg h10, if_neg h11, if_pos h12] at h
      exact Or.inr (Or.inr ⟨h12, by simpa [set_help] using (Except.ok.inj h).symm⟩)
    · simp [parseBody, hpos, h1, h2, h3, h4, h5, h6, h7, h8, h9, h10, h11, h12] at h

/-- The loop body on a string flag that is the last token, or is followed by a
token beginning with a dash, throws `NotEnoughArg` with the flag, after
`++argv_i` and before any assignment. -/
theorem parseBody_notEnoughArg (convert : String → Option Nat) (st : PfDeconvIO)
    (f : String) (rest : List String)
    (hpos : st.argv_i = f :: rest)
    (hf : f = "-ref" ∨ f = "-alt" ∨ f = "-plaf" ∨ f = "-o" ∨
      (f = "-panel" ∧ usePanel st = true))
    (hnext : rest = [] ∨ ∃ t r, rest = t :: r ∧ beginsWithDash t = true) :
    parseBody convert st = .error (.NotEnoughArg f, { st with argv_i := rest }) := by
  have hp : f = "-panel" → usePanel st = true := by
    intro h
    rcases hf with h1 | h1 | h1 | h1 | ⟨_, h1⟩
    · rw [h1] at h; exact absurd h (by decide)
    · rw [h1] at h; exact absurd h (by decide)
    · rw [h1] at h; exact absurd h (by decide)
    · rw [h1] at h; exact absurd h (by decide)
    · exact h1
  have hflag : f = "-ref" ∨ f = "-alt" ∨ f = "-plaf" ∨ f = "-o" ∨ f = "-panel" := by
    rcases hf with h | h | h | h | ⟨h, _⟩ <;> simp [h]
  rcases hnext with hnil | ⟨t, r, hr, ht⟩
  · subst hnil
    rcases hflag with h | h | h | h | h <;> (have hp1 := hp; subst h) <;>
      simp [parseBody, readNextStringto, hpos, hp1]
  · subst hr
    rcases hflag with h | h | h | h | h <;> (have hp1 := hp; subst h) <;>
      simp [parseBody, readNextStringto, hpos, hp1, ht]

/-- Invariant rule for the loop of `parse`: a property of the state at the head of
the loop that every completed iteration (body, then `++argv_i`) preserves
holds on normal return, where the iterator is at `argv_.end()`. -/
theorem parseLoop_invariant (convert : String → Option Nat) (P : PfDeconvIO → Prop)
    (hstep : ∀ (st st1 : PfDeconvIO) (x : String) (rest : List String), P st →
      parseBody convert st = .ok st1 → st1.argv_i = x :: rest →
      P { st1 with argv_i := rest }) :
    ∀ (fuel : Nat) (st st2 : PfDeconvIO), P st →
      parseLoop convert fuel st = .ok st2 → P st2 ∧ st2.argv_i = [] := by
  intro fuel
  induction fuel with
  | zero => intro st st2 _ h; simp [parseLoop] at h
  | succ n ih =>
    intro st st2 hP h
    unfold parseLoop at h
    cases hb : parseBody convert st with
    | error e => simp [hb] at h
    | ok st1 =>
      simp only [hb] at h
      have hex : st1.argv_i = [] ∨ ∃ x rest, st1.argv_i = x :: rest := by
        cases st1.argv_i with
        | nil => exact Or.inl rfl
        | cons a l => exact Or.inr ⟨a, l, rfl⟩
      rcases hex with hnil | ⟨x, rest, hx⟩
      · simp [hnil] at h
      · have hP1 := hstep st st1 x rest hP hb hx
        simp only [hx] at h
        by_cases hr : rest = []
        · subst hr
          simp at h
          subst h
          exact ⟨hP1, rfl⟩
        · rw [if_pos hr] at h
          exact ih _ _ hP1 h

/-- Started on a token, `readNextStringto` leaves abnormally only by an exception. -/
theorem readNextStringto_error (readto : String → PfDeconvIO → PfDeconvIO)
    (st s : PfDeconvIO) (e : Err) (hne : st.argv_i ≠ [])
    (h : readNextStringto readto st = .error (e, s)) : e.isException = true := by
  unfold readNextStringto at h
  cases hpos : st.argv_i with
  | nil => exact absurd hpos hne
  | cons tok rest =>
    cases rest with
    | nil =>
      simp [hpos] at h
      rw [← h.1]; rfl
    | cons v rest1 =>
      by_cases hv : beginsWithDash v = true
      · simp [hpos, hv] at h
        rw [← h.1]; rfl
      · simp [hpos, hv] at h

/-- Started on a token, `readNextInput` leaves abnormally only by an exception. -/
theorem readNextInput_error (convert : String → Option Nat)
    (store : Nat → PfDeconvIO → PfDeconvIO)
    (st s : PfDeconvIO) (e : Err) (hne : st.argv_i ≠ [])
    (h : readNextInput convert store st = .error (e, s)) : e.isException = true := by
  unfold readNextInput at h
  cases hpos : st.argv_i with
  | nil => exact absurd hpos hne
  | cons tok rest =>
    cases rest with
    | nil =>
      simp [hpos] at h
      rw [← h.1]; rfl
    | cons v rest1 =>
      by_cases hv : beginsWithDash v = true
      · simp [hpos, hv] at h
        rw [← h.1]; rfl
      · cases hc : convert v with
        | none =>
          simp [hpos, hv, hc] at h
          rw [← h.1]; rfl
        | some n => simp [hpos, hv, hc] at h

/-- When the iterator is not at the end, the loop body leaves abnormally only by
throwing an exception. -/
theorem parseBody_error (convert : String → Option Nat) (st s : PfDeconvIO) (e : Err)
    (hne : st.argv_i ≠ []) (h : parseBody convert st = .error (e, s)) :
    e.isException = true := by
  have hex : st.argv_i = [] ∨ ∃ tok rest, st.argv_i = tok :: rest := by
    cases st.argv_i with
    | nil => exact Or.inl rfl
    | cons a l => exact Or.inr ⟨a, l, rfl⟩
  rcases hex with hpos | ⟨tok, rest, hpos⟩
  · exact absurd hpos hne
  · simp only [parseBody, hpos] at h
    by_cases h1 : tok = "-ref"
    · rw [if_pos h1] at h
      exact readNextStringto_error _ _ _ _ hne h
    rw [if_neg h1] at h
    by_cases h2 : tok = "-alt"
    · rw [if_pos h2] at h
      exact readNextStringto_error _ _ _ _ hne h
    rw [if_neg h2] at h
    by_cases h3 : tok = "-plaf"
    · rw [if_pos h3] at h
      exact readNextStringto_error _ _ _ _ hne h
    rw [if_neg h3] at h
    by_cases h4 : tok = "-panel"
    · rw [if_pos h4] at h
      by_cases hu : usePanel st = false
      · rw [if_pos hu] at h
        simp at h
        rw [← h.1]; rfl
      · rw [if_neg hu] at h
        exact readNextStringto_error _ _ _ _ hne h
    rw [if_neg h4] at h
    by_cases h5 : tok = "-noPanel"
    · rw [if_pos h5] at h
      by_cases hc : (usePanel st && decide (st.panelFileName_.length > 0)) = true
      · rw [if_pos hc] at h
        simp at h
        rw [← h.1]; rfl
      · rw [if_neg hc] at h
        simp at h
    rw [if_neg h5] at h
    by_cases h6 : tok = "-o"
    · rw [if_pos h6] at h
      exact readNextStringto_error _ _ _ _ hne h
    rw [if_neg h6] at h
    by_cases h7 : tok = "-p"
    · rw [if_pos h7] at h
      exact readNextInput_error _ _ _ _ _ hne h
    rw [if_neg h7] at h
    by_cases h8 : tok = "-k"
    · rw [if_pos h8] at h
      exact readNextInput_error _ _ _ _ _ hne h
    rw [if_neg h8] at h
    by_cases h9 : tok = "-nSample"
    · rw [if_pos h9] at h
      exact readNextInput_error _ _ _ _ _ hne h
    rw [if_neg h9] at h
    by_cases h10 : tok = "-rate"
    · rw [if_pos h10] at h
      exact readNextInput_error _ _ _ _ _ hne h
    rw [if_neg h10] at h
    by_cases h11 : tok = "-seed"
    · rw [if_pos h11] at h
      cases hr : readNextInput convert
          (fun v t => { t with random_seed_ := v }) st with
      | error e1 =>
        simp only [hr] at h
        have he : e1 = (e, s) := Except.error.inj h
        rw [he] at hr
        exact readNextInput_error _ _ _ _ _ hne hr
      | ok st2 => simp [hr] at h
    rw [if_neg h11] at h
    by_cases h12 : tok = "-h" ∨ tok = "-help"
    · rw [if_pos h12] at h
      simp at h
    · rw [if_neg h12] at h
      simp at h
      rw [← h.1]; rfl

/-- After a normal pass through the body the iterator still stands on a token, so
that `++argv_i` is defined, and fewer tokens follow it than were left before. -/
theorem parseBody_ok_length (convert : String → Option Nat) (st st1 : PfDeconvIO)
    (h : parseBody convert st = .ok st1) :
    ∃ x rest, st1.argv_i = x :: rest ∧ rest.length < st.argv_i.length := by
  obtain ⟨tok, r, hpos, hcase⟩ := parseBody_ok convert st st1 h
  rcases hcase with ⟨v, r1, hr, -, hc⟩ | ⟨-, -, hs⟩ | ⟨-, hs⟩
  · refine ⟨v, r1, ?_, ?_⟩
    · rcases hc with ⟨-, h⟩ | ⟨-, h⟩ | ⟨-, h⟩ | ⟨-, -, h⟩ | ⟨-, h⟩ | ⟨-, _, -, h⟩ |
        ⟨-, _, -, h⟩ | ⟨-, _, -, h⟩ | ⟨-, _, -, h⟩ | ⟨-, _, -, h⟩ <;> rw [h, hr]
    · rw [hpos, hr]; simp only [List.length_cons]; omega
  · exact ⟨tok, r, by rw [hs, ← hpos], by rw [hpos]; simp⟩
  · exact ⟨tok, r, by rw [hs, ← hpos], by rw [hpos]; simp⟩

/-- With one unit of fuel per remaining token the loop never runs out of fuel and
never steps past the end: started on a token, it leaves abnormally only by an
exception. -/
theorem parseLoop_error (convert : String → Option Nat) :
    ∀ (fuel : Nat) (st s : PfDeconvIO) (e : Err), st.argv_i ≠ [] →
      st.argv_i.length ≤ fuel → parseLoop convert fuel st = .error (e, s) →
      e.isException = true := by
  intro fuel
  induction fuel with
  | zero =>
    intro st s e hne hlen _
    exact absurd (List.length_eq_zero.mp (Nat.le_zero.mp hlen)) hne
  | succ n ih =>
    intro st s e hne hlen h
    unfold parseLoop at h
    cases hb : parseBody convert st with
    | error e1 =>
      simp only [hb] at h
      have he : e1 = (e, s) := Except.error.inj h
      rw [he] at hb
      exact parseBody_error convert st s e hne hb
    | ok st1 =>
      simp only [hb] at h
      obtain ⟨x, rest, hx, hlt⟩ := parseBody_ok_length convert st st1 hb
      simp only [hx] at h
      by_cases hr : rest = []
      · rw [if_neg (by simpa using hr)] at h
        simp at h
      · rw [if_pos hr] at h
        exact ih _ s e hr (by simp only; omega) h

/-- Started on a token, `parse` leaves abnormally only by an exception: the fuel
it supplies is enough and it has no undefined behaviour. -/
theorem parse_error (convert : String → Option Nat) (st s : PfDeconvIO) (e : Err)
    (hne : st.argv_i ≠ []) (h : parse convert st = .error (e, s)) :
    e.isException = true :=
  parseLoop_error convert _ st s e hne (Nat.le_succ _) h

/-- The property `panelValuesNonEmpty` passes to the tail of the list. -/
theorem panelValuesNonEmpty_tail (a : String) (l : List String)
    (h : panelValuesNonEmpty (a :: l) = true) : panelValuesNonEmpty l = true := by
  simp only [panelValuesNonEmpty, Bool.and_eq_true] at h
  exact h.2

/-- Under `panelValuesNonEmpty`, the token after a leading `-panel` is not empty. -/
theorem panelValuesNonEmpty_value (v : String) (l : List String)
    (h : panelValuesNonEmpty ("-panel" :: v :: l) = true) : v ≠ "" := by
  intro hv
  subst hv
  simp [panelValuesNonEmpty] at h

/-- A token that does not begin with a dash is not `-noPanel`. -/
theorem ne_noPanel_of_not_dash (v : String) (h : beginsWithDash v = false) :
    v ≠ "-noPanel" := by
  intro hv; subst hv; exact absurd h (by decide)

/-- A token that does not begin with a dash is not `-panel`. -/
theorem ne_panel_of_not_dash (v : String) (h : beginsWithDash v = false) :
    v ≠ "-panel" := by
  intro hv; subst hv; exact absurd h (by decide)

/-- The predicate `panelConflict` is preserved by every completed iteration of the
loop. -/
theorem panelConflict_step (convert : String → Option Nat)
    (s s1 : PfDeconvIO) (x : String) (rest : List String)
    (hP : panelConflict s) (hb : parseBody convert s = .ok s1)
    (hx : s1.argv_i = x :: rest) : panelConflict { s1 with argv_i := rest } := by
  obtain ⟨hg, hd⟩ := hP
  obtain ⟨tok, r, hpos, hcase⟩ := parseBody_ok convert s s1 hb
  rw [hpos] at hg hd
  have hgr : panelValuesNonEmpty r = true := panelValuesNonEmpty_tail _ _ hg
  rcases hcase with ⟨v, r1, hr, hv, hc⟩ | ⟨h, hnp, hs⟩ | ⟨h, hs⟩
  · -- a flag with a value: the iterator stands on `v`, then moves to `r1`
    have hs1 : s1.argv_i = v :: r1 := by
      rcases hc with ⟨-, h⟩ | ⟨-, h⟩ | ⟨-, h⟩ | ⟨-, -, h⟩ | ⟨-, h⟩ | ⟨-, _, -, h⟩ |
        ⟨-, _, -, h⟩ | ⟨-, _, -, h⟩ | ⟨-, _, -, h⟩ | ⟨-, _, -, h⟩ <;> rw [h, hr]
    rw [hs1] at hx
    obtain ⟨-, hrest⟩ := List.cons.inj hx
    subst hrest
    subst hr
    have hg1 : panelValuesNonEmpty r1 = true := panelValuesNonEmpty_tail _ _ hgr
    have hvn := ne_noPanel_of_not_dash v hv
    have hvp := ne_panel_of_not_dash v hv
    by_cases hp : tok = "-panel"
    · -- `-panel v`: panel use must be on, and `v` is not empty
      have hu : s.usePanel_ = true ∧
          s1 = { s with argv_i := v :: r1, panelFileName_ := v } := by
        rcases hc with ⟨h, -⟩ | ⟨h, -⟩ | ⟨h, -⟩ | ⟨-, hu, h⟩ | ⟨h, -⟩ | ⟨h, -⟩ |
          ⟨h, -⟩ | ⟨h, -⟩ | ⟨h, -⟩ | ⟨h, -⟩
        all_goals first
          | exact ⟨hu, h⟩
          | (rw [h] at hp; exact absurd hp (by decide))
      obtain ⟨hu, hs⟩ := hu
      subst hp
      have hvne : v ≠ "" := panelValuesNonEmpty_value v r1 hg
      rcases hd with ⟨hmem, -, -⟩ | ⟨-, hoff⟩
      · have hm : "-noPanel" ∈ r1 := by
          simp only [List.mem_cons] at hmem
          rcases hmem with h | h | h
          · exact absurd h (by decide)
          · exact absurd h.symm hvn
          · exact h
        subst hs
        exact ⟨hg1, Or.inl ⟨hm, hu, Or.inl hvne⟩⟩
      · rw [hu] at hoff; exact absurd hoff (by decide)
    · -- another flag with a value: panel settings are untouched
      have hkeep : s1.usePanel_ = s.usePanel_ ∧ s1.panelFileName_ = s.panelFileName_ ∧
          tok ≠ "-noPanel" := by
        rcases hc with ⟨ht, h⟩ | ⟨ht, h⟩ | ⟨ht, h⟩ | ⟨ht, -, h⟩ | ⟨ht, h⟩ | ⟨ht, _, -, h⟩ |
          ⟨ht, _, -, h⟩ | ⟨ht, _, -, h⟩ | ⟨ht, _, -, h⟩ | ⟨ht, _, -, h⟩
        all_goals first
          | exact absurd ht hp
          | (subst h; subst ht; exact ⟨rfl, rfl, by decide⟩)
      obtain ⟨hku, hkn, htn⟩ := hkeep
      have hmn : "-noPanel" ∈ tok :: v :: r1 → "-noPanel" ∈ r1 := by
        intro hmem
        simp only [List.mem_cons] at hmem
        rcases hmem with h | h | h
        · exact absurd h.symm htn
        · exact absurd h.symm hvn
        · exact h
      have hmp : "-panel" ∈ tok :: v :: r1 → "-panel" ∈ r1 := by
        intro hmem
        simp only [List.mem_cons] at hmem
        rcases hmem with h | h | h
        · exact absurd h.symm hp
        · exact absurd h.symm hvp
        · exact h
      refine ⟨hg1, ?_⟩
      show ("-noPanel" ∈ r1 ∧ s1.usePanel_ = true ∧
          (s1.panelFileName_ ≠ "" ∨ "-panel" ∈ r1)) ∨ ("-panel" ∈ r1 ∧ s1.usePanel_ = false)
      rw [hku, hkn]
      rcases hd with ⟨hmem, hu, hor⟩ | ⟨hmem, hoff⟩
      · exact Or.inl ⟨hmn hmem, hu, hor.imp id hmp⟩
      · exact Or.inr ⟨hmp hmem, hoff⟩
  · -- `-noPanel`: accepted only when no panel is named; a `-panel` follows
    subst h
    subst hs
    simp only at hx
    rw [hpos] at hx
    obtain ⟨-, hrest⟩ := List.cons.inj hx
    subst hrest
    have hmp : "-panel" ∈ "-noPanel" :: r → "-panel" ∈ r := by
      intro hmem
      simp only [List.mem_cons] at hmem
      rcases hmem with h | h
      · exact absurd h (by decide)
      · exact h
    refine ⟨hgr, Or.inr ⟨?_, rfl⟩⟩
    rcases hd with ⟨-, hu, hor⟩ | ⟨hmem, -⟩
    · rcases hnp with hoff | hempty
      · rw [hu] at hoff; exact absurd hoff (by decide)
      · rcases hor with hne | hmem
        · exact absurd hempty hne
        · exact hmp hmem
    · exact hmp hmem
  · -- `-h` or `-help`
    subst hs
    simp only at hx
    rw [hpos] at hx
    obtain ⟨-, hrest⟩ := List.cons.inj hx
    subst hrest
    have htn : tok ≠ "-noPanel" := by
      rcases h with h | h <;> (subst h; decide)
    have htp : tok ≠ "-panel" := by
      rcases h with h | h <;> (subst h; decide)
    have hmn : "-noPanel" ∈ tok :: r → "-noPanel" ∈ r := by
      intro hmem
      simp only [List.mem_cons] at hmem
      rcases hmem with h | h
      · exact absurd h.symm htn
      · exact h
    have hmp : "-panel" ∈ tok :: r → "-panel" ∈ r := by
      intro hmem
      simp only [List.mem_cons] at hmem
      rcases hmem with h | h
      · exact absurd h.symm htp
      · exact h
    refine ⟨hgr, ?_⟩
    rcases hd with ⟨hmem, hu, hor⟩ | ⟨hmem, hoff⟩
    · exact Or.inl ⟨hmn hmem, hu, hor.imp id hmp⟩
    · exact Or.inr ⟨hmp hmem, hoff⟩

/-- With no pairs, `lastValue` is the initial value. -/
theorem lastValue_nil (flag initial : String) : lastValue flag initial [] = initial := rfl

/-- Unfolding of `lastValue` at the first pair: the pair updates the initial value
when its flag matches. -/
theorem lastValue_cons (flag initial f v : String) (ps : List (String × String)) :
    lastValue flag initial ((f, v) :: ps)
      = lastValue flag (if f = flag then v else initial) ps := by
  unfold lastValue
  by_cases h : f = flag
  · subst h
    simp only [List.filter_cons, beq_self_eq_true, if_true]
    cases hq : List.filter (fun p : String × String => p.1 == f) ps with
    | nil => simp
    | cons q qs =>
      obtain ⟨p, hp⟩ : ∃ p, (q :: qs).getLast? = some p :=
        ⟨_, List.getLast?_eq_getLast _ (List.cons_ne_nil _ _)⟩
      simp [List.getLast?_cons_cons, hp]
  · have hb : (f == flag) = false := by simpa using h
    simp [List.filter_cons, hb, h]

/-- The loop body on `-ref v`. -/
theorem parseBody_ref (convert : String → Option Nat) (s : PfDeconvIO) (v : String)
    (rest : List String) (hpos : s.argv_i = "-ref" :: v :: rest)
    (hv : beginsWithDash v = false) :
    parseBody convert s = .ok { s with argv_i := v :: rest, refFileName_ := v } := by
  simp [parseBody, readNextStringto, hpos, hv]

/-- The loop body on `-alt v`. -/
theorem parseBody_alt (convert : String → Option Nat) (s : PfDeconvIO) (v : String)
    (rest : List String) (hpos : s.argv_i = "-alt" :: v :: rest)
    (hv : beginsWithDash v = false) :
    parseBody convert s = .ok { s with argv_i := v :: rest, altFileName_ := v } := by
  simp [parseBody, readNextStringto, hpos, hv]

/-- The loop body on `-plaf v`. -/
theorem parseBody_plaf (convert : String → Option Nat) (s : PfDeconvIO) (v : String)
    (rest : List String) (hpos : s.argv_i = "-plaf" :: v :: rest)
    (hv : beginsWithDash v = false) :
    parseBody convert s = .ok { s with argv_i := v :: rest, plafFileName_ := v } := by
  simp [parseBody, readNextStringto, hpos, hv]

/-- The loop body on `-panel v` while panel use is enabled. -/
theorem parseBody_panel (convert : String → Option Nat) (s : PfDeconvIO) (v : String)
    (rest : List String) (hpos : s.argv_i = "-panel" :: v :: rest)
    (hv : beginsWithDash v = false) (hu : s.usePanel_ = true) :
    parseBody convert s = .ok { s with argv_i := v :: rest, panelFileName_ := v } := by
  simp [parseBody, readNextStringto, hpos, hv, usePanel, hu]

/-- The loop body on `-o v`. -/
theorem parseBody_o (convert : String → Option Nat) (s : PfDeconvIO) (v : String)
    (rest : List String) (hpos : s.argv_i = "-o" :: v :: rest)
    (hv : beginsWithDash v = false) :
    parseBody convert s = .ok { s with argv_i := v :: rest, prefix_ := v } := by
  simp [parseBody, readNextStringto, hpos, hv]

/-- One completed iteration of the loop after a normal pass through the body that
left the iterator on the token `v`. -/
theorem parseLoop_string_flag (convert : String → Option Nat) (fuel : Nat)
    (s s1 : PfDeconvIO) (v : String) (rest : List String)
    (hb : parseBody convert s = .ok s1) (h1 : s1.argv_i = v :: rest) :
    parseLoop convert (fuel + 1) s =
      if rest ≠ [] then parseLoop convert fuel { s1 with argv_i := rest }
      else .ok { s1 with argv_i := rest } := by
  rw [parseLoop]
  simp only [hb, h1]

/-- With no pairs, `afterPairs` only puts the iterator at the end. -/
theorem afterPairs_nil (s : PfDeconvIO) : afterPairs s [] = { s with argv_i := [] } := rfl

/-- The loop of `parse`, started with panel use enabled on a non-empty list of
(string flag, value) pairs and with enough fuel, returns normally in the state
`afterPairs`. -/
theorem parseLoop_pairs (convert : String → Option Nat) :
    ∀ (ps : List (String × String)) (p : String × String) (fuel : Nat) (s : PfDeconvIO),
      (∀ q ∈ p :: ps, q.1 ∈ stringFlags ∧ beginsWithDash q.2 = false) →
      s.usePanel_ = true → s.argv_i = flagValueArgs (p :: ps) →
      (flagValueArgs (p :: ps)).length ≤ fuel →
      parseLoop convert fuel s = .ok (afterPairs s (p :: ps)) := by
  intro ps
  induction ps with
  | nil =>
    intro p fuel s hall hu hpos hfuel
    obtain ⟨f, v⟩ := p
    obtain ⟨hf, hv⟩ := hall (f, v) (List.mem_cons_self _ _)
    simp only [flagValueArgs] at hpos hfuel
    obtain ⟨n, rfl⟩ : ∃ n, fuel = n + 1 :=
      ⟨fuel - 1, by simp only [List.length_cons] at hfuel; omega⟩
    simp only [stringFlags, List.mem_cons, List.mem_singleton, List.mem_nil_iff,
      or_false] at hf
    rcases hf with h | h | h | h | h <;> subst h
    · rw [parseLoop_string_flag convert n s _ v [] (parseBody_ref convert s v [] hpos hv) rfl]
      simp [afterPairs, lastValue_cons, lastValue_nil]
    · rw [parseLoop_string_flag convert n s _ v [] (parseBody_alt convert s v [] hpos hv) rfl]
      simp [afterPairs, lastValue_cons, lastValue_nil]
    · rw [parseLoop_string_flag convert n s _ v [] (parseBody_plaf convert s v [] hpos hv) rfl]
      simp [afterPairs, lastValue_cons, lastValue_nil]
    · rw [parseLoop_string_flag convert n s _ v []
        (parseBody_panel convert s v [] hpos hv hu) rfl]
      simp [afterPairs, lastValue_cons, lastValue_nil]
    · rw [parseLoop_string_flag convert n s _ v [] (parseBody_o convert s v [] hpos hv) rfl]
      simp [afterPairs, lastValue_cons, lastValue_nil]
  | cons p1 ps ih =>
    intro p fuel s hall hu hpos hfuel
    obtain ⟨f, v⟩ := p
    obtain ⟨hf, hv⟩ := hall (f, v) (List.mem_cons_self _ _)
    have hall1 : ∀ q ∈ p1 :: ps, q.1 ∈ stringFlags ∧ beginsWithDash q.2 = false :=
      fun q hq => hall q (List.mem_cons_of_mem _ hq)
    have hpos1 : s.argv_i = f :: v :: flagValueArgs (p1 :: ps) := hpos
    have hne : flagValueArgs (p1 :: ps) ≠ [] := by
      obtain ⟨f1, v1⟩ := p1
      simp [flagValueArgs]
    have hlen : (flagValueArgs (p1 :: ps)).length + 2 ≤ fuel := hfuel
    obtain ⟨n, rfl⟩ : ∃ n, fuel = n + 1 := ⟨fuel - 1, by omega⟩
    have hn : (flagValueArgs (p1 :: ps)).length ≤ n := by omega
    simp only [stringFlags, List.mem_cons, List.mem_singleton, List.mem_nil_iff,
      or_false] at hf
    rcases hf with h | h | h | h | h <;> subst h
    · rw [parseLoop_string_flag convert n s _ v _ (parseBody_ref convert s v _ hpos1 hv) rfl,
        if_pos hne]
      refine (ih p1 n _ hall1 ?_ rfl hn).trans ?_
      · exact hu
      · simp [afterPairs, lastValue_cons]
    · rw [parseLoop_string_flag convert n s _ v _ (parseBody_alt convert s v _ hpos1 hv) rfl,
        if_pos hne]
      refine (ih p1 n _ hall1 ?_ rfl hn).trans ?_
      · exact hu
      · simp [afterPairs, lastValue_cons]
    · rw [parseLoop_string_flag convert n s _ v _ (parseBody_plaf convert s v _ hpos1 hv) rfl,
        if_pos hne]
      refine (ih p1 n _ hall1 ?_ rfl hn).trans ?_
      · exact hu
      · simp [afterPairs, lastValue_cons]
    · rw [parseLoop_string_flag convert n s _ v _
          (parseBody_panel convert s v _ hpos1 hv hu) rfl,
        if_pos hne]
      refine (ih p1 n _ hall1 ?_ rfl hn).trans ?_
      · exact hu
      · simp [afterPairs, lastValue_cons]
    · rw [parseLoop_string_flag convert n s _ v _ (parseBody_o convert s v _ hpos1 hv) rfl,
        if_pos hne]
      refine (ih p1 n _ hall1 ?_ rfl hn).trans ?_
      · exact hu
      · simp [afterPairs, lastValue_cons]

/-- The property `valuesOk` passes to the tail of the list. -/
theorem valuesOk_tail (flag a : String) (l : List String)
    (h : valuesOk flag (a :: l) = true) : valuesOk flag l = true := by
  cases l with
  | nil => rfl
  | cons b rest =>
    simp only [valuesOk, Bool.and_eq_true] at h
    exact h.2

/-- Under `valuesOk`, the token after a leading occurrence of the flag is not
empty. -/
theorem valuesOk_value (flag v : String) (l : List String)
    (h : valuesOk flag (flag :: v :: l) = true) : v ≠ "" := by
  intro hv
  subst hv
  simp [valuesOk] at h

/-- The predicate `fileNamePending` of a required flag is preserved by every
completed iteration of the loop. -/
theorem fileNamePending_step (convert : String → Option Nat) (flag : String)
    (hflag : flag = "-ref" ∨ flag = "-alt" ∨ flag = "-plaf")
    (s s1 : PfDeconvIO) (x : String) (rest : List String)
    (hP : fileNamePending flag s) (hb : parseBody convert s = .ok s1)
    (hx : s1.argv_i = x :: rest) : fileNamePending flag { s1 with argv_i := rest } := by
  obtain ⟨hg, hd⟩ := hP
  obtain ⟨tok, r, hpos, hcase⟩ := parseBody_ok convert s s1 hb
  rw [hpos] at hg hd
  have hgr : valuesOk flag r = true := valuesOk_tail _ _ _ hg
  have hdash : beginsWithDash flag = true := by
    rcases hflag with h | h | h <;> (subst h; rfl)
  rcases hcase with ⟨v, r1, hr, hv, hc⟩ | ⟨h, -, hs⟩ | ⟨h, hs⟩
  · have hs1 : s1.argv_i = v :: r1 := by
      rcases hc with ⟨-, h⟩ | ⟨-, h⟩ | ⟨-, h⟩ | ⟨-, -, h⟩ | ⟨-, h⟩ | ⟨-, _, -, h⟩ |
        ⟨-, _, -, h⟩ | ⟨-, _, -, h⟩ | ⟨-, _, -, h⟩ | ⟨-, _, -, h⟩ <;> rw [h, hr]
    rw [hs1] at hx
    obtain ⟨-, hrest⟩ := List.cons.inj hx
    subst hrest
    subst hr
    have hg1 : valuesOk flag r1 = true := valuesOk_tail _ _ _ hgr
    have hvf : v ≠ flag := by
      intro h; rw [h, hdash] at hv; exact absurd hv (by decide)
    refine ⟨hg1, ?_⟩
    show fileNameOf flag s1 ≠ "" ∨ flag ∈ r1
    by_cases ht : tok = flag
    · -- the flag itself: its member now holds `v`, which is not empty
      left
      have hvne : v ≠ "" := valuesOk_value flag v r1 (ht ▸ hg)
      have hval : fileNameOf flag s1 = v := by
        rcases hflag with hfl | hfl | hfl <;> subst hfl <;>
        rcases hc with ⟨h, hs⟩ | ⟨h, hs⟩ | ⟨h, hs⟩ | ⟨h, -, hs⟩ | ⟨h, hs⟩ | ⟨h, _, -, hs⟩ |
          ⟨h, _, -, hs⟩ | ⟨h, _, -, hs⟩ | ⟨h, _, -, hs⟩ | ⟨h, _, -, hs⟩ <;>
        first
          | (rw [h] at ht; exact absurd ht (by decide))
          | (rw [hs]; rfl)
      rw [hval]; exact hvne
    · -- another flag: the member is untouched and the flag is still to come
      have hkeep : fileNameOf flag s1 = fileNameOf flag s := by
        rcases hflag with hfl | hfl | hfl <;> subst hfl <;>
        rcases hc with ⟨h, hs⟩ | ⟨h, hs⟩ | ⟨h, hs⟩ | ⟨h, -, hs⟩ | ⟨h, hs⟩ | ⟨h, _, -, hs⟩ |
          ⟨h, _, -, hs⟩ | ⟨h, _, -, hs⟩ | ⟨h, _, -, hs⟩ | ⟨h, _, -, hs⟩ <;>
        first
          | exact absurd h ht
          | (rw [hs]; rfl)
      rw [hkeep]
      refine hd.imp id ?_
      intro hmem
      simp only [List.mem_cons] at hmem
      rcases hmem with h | h | h
      · exact absurd h.symm ht
      · exact absurd h.symm hvf
      · exact h
  · -- `-noPanel`
    subst hs
    simp only at hx
    rw [hpos] at hx
    obtain ⟨-, hrest⟩ := List.cons.inj hx
    subst hrest
    have ht : tok ≠ flag := by
      rcases hflag with hfl | hfl | hfl <;> (subst hfl; subst h; decide)
    refine ⟨hgr, ?_⟩
    show fileNameOf flag s ≠ "" ∨ flag ∈ r
    refine hd.imp id ?_
    intro hmem
    simp only [List.mem_cons] at hmem
    rcases hmem with h | h
    · exact absurd h.symm ht
    · exact h
  · -- `-h`, `-help`
    subst hs
    simp only at hx
    rw [hpos] at hx
    obtain ⟨-, hrest⟩ := List.cons.inj hx
    subst hrest
    have ht : tok ≠ flag := by
      rcases hflag with hfl | hfl | hfl <;> rcases h with h | h <;>
        (subst hfl; subst h; decide)
    refine ⟨hgr, ?_⟩
    show fileNameOf flag s ≠ "" ∨ flag ∈ r
    refine hd.imp id ?_
    intro hmem
    simp only [List.mem_cons] at hmem
    rcases hmem with h | h
    · exact absurd h.symm ht
    · exact h

/-- The predicate `panelAbsent` is preserved by every completed iteration of the
loop. -/
theorem panelAbsent_step (convert : String → Option Nat) (NP : Prop)
    (s s1 : PfDeconvIO) (x : String) (rest : List String)
    (hP : panelAbsent NP s) (hb : parseBody convert s = .ok s1)
    (hx : s1.argv_i = x :: rest) : panelAbsent NP { s1 with argv_i := rest } := by
  obtain ⟨hno, hname, hd⟩ := hP
  obtain ⟨tok, r, hpos, hcase⟩ := parseBody_ok convert s s1 hb
  rw [hpos] at hno hd
  have htp : tok ≠ "-panel" := fun h => hno (h ▸ List.mem_cons_self _ _)
  have hnor : "-panel" ∉ r := fun h => hno (List.mem_cons_of_mem _ h)
  rcases hcase with ⟨v, r1, hr, hv, hc⟩ | ⟨h, -, hs⟩ | ⟨h, hs⟩
  · have hs1 : s1.argv_i = v :: r1 := by
      rcases hc with ⟨-, h⟩ | ⟨-, h⟩ | ⟨-, h⟩ | ⟨-, -, h⟩ | ⟨-, h⟩ | ⟨-, _, -, h⟩ |
        ⟨-, _, -, h⟩ | ⟨-, _, -, h⟩ | ⟨-, _, -, h⟩ | ⟨-, _, -, h⟩ <;> rw [h, hr]
    rw [hs1] at hx
    obtain ⟨-, hrest⟩ := List.cons.inj hx
    subst hrest
    subst hr
    have hvn := ne_noPanel_of_not_dash v hv
    have hkeep : s1.usePanel_ = s.usePanel_ ∧ s1.panelFileName_ = s.panelFileName_ ∧
        tok ≠ "-noPanel" := by
      rcases hc with ⟨ht, h⟩ | ⟨ht, h⟩ | ⟨ht, h⟩ | ⟨ht, -, h⟩ | ⟨ht, h⟩ | ⟨ht, _, -, h⟩ |
        ⟨ht, _, -, h⟩ | ⟨ht, _, -, h⟩ | ⟨ht, _, -, h⟩ | ⟨ht, _, -, h⟩
      all_goals first
        | exact absurd ht htp
        | (subst h; subst ht; exact ⟨rfl, rfl, by decide⟩)
    obtain ⟨hku, hkn, htn⟩ := hkeep
    have hiff : "-noPanel" ∈ tok :: v :: r1 ↔ "-noPanel" ∈ r1 := by
      constructor
      · intro hmem
        simp only [List.mem_cons] at hmem
        rcases hmem with h | h | h
        · exact absurd h.symm htn
        · exact absurd h.symm hvn
        · exact h
      · intro hmem
        exact List.mem_cons_of_mem _ (List.mem_cons_of_mem _ hmem)
    refine ⟨fun h => hnor (List.mem_cons_of_mem _ h), ?_, ?_⟩
    · show s1.panelFileName_ = ""
      rw [hkn]; exact hname
    · show (s1.usePanel_ = false ∧ NP) ∨ (s1.usePanel_ = true ∧ (NP ↔ "-noPanel" ∈ r1))
      rw [hku]
      rcases hd with hoff | ⟨hon, hnp⟩
      · exact Or.inl hoff
      · exact Or.inr ⟨hon, hnp.trans hiff⟩
  · subst h
    subst hs
    simp only at hx
    rw [hpos] at hx
    obtain ⟨-, hrest⟩ := List.cons.inj hx
    subst hrest
    refine ⟨hnor, hname, Or.inl ⟨rfl, ?_⟩⟩
    rcases hd with ⟨-, hnp⟩ | ⟨-, hnp⟩
    · exact hnp
    · exact hnp.mpr (List.mem_cons_self _ _)
  · subst hs
    simp only at hx
    rw [hpos] at hx
    obtain ⟨-, hrest⟩ := List.cons.inj hx
    subst hrest
    have htn : tok ≠ "-noPanel" := by
      rcases h with h | h <;> (subst h; decide)
    have hiff : "-noPanel" ∈ tok :: r ↔ "-noPanel" ∈ r := by
      constructor
      · intro hmem
        simp only [List.mem_cons] at hmem
        rcases hmem with h | h
        · exact absurd h.symm htn
        · exact h
      · exact List.mem_cons_of_mem _
    refine ⟨hnor, hname, ?_⟩
    rcases hd with hoff | ⟨hon, hnp⟩
    · exact Or.inl hoff
    · exact Or.inr ⟨hon, hnp.trans hiff⟩

/-! ## C1: segment starts built by `finalize` -/

/-- C1 (evaluation at the failing input). The constructor is run on a PLAF table
with two chromosomes that have 2 and 1 positions. `finalize` completes and
leaves `indexOfChromStarts_ = [0, 1]`: entry 1 is the size of `position_[1]`,
whereas the number of positions of the chromosomes before chromosome 1 is 2. -/
theorem finalize_segment_start_off_by_one (NDEBUG : Bool) (cd ver : Option String)
    (convert : String → Option Nat) :
    ∃ st, PfDeconvIO_ctor NDEBUG cd ver convert
        (fun _ => .ok { info_ := [5, 7, 9], chrom_ := ["Pf3D7_01_v3", "Pf3D7_02_v3"],
                        position_ := [[100, 200], [300]] })
        ["-ref", "r.txt", "-alt", "a.txt", "-plaf", "p.txt", "-noPanel"] = .ok st ∧
      st.position_ = [[100, 200], [300]] ∧
      st.indexOfChromStarts_ = [0, 1] ∧
      lociBefore st.position_ 1 = 2 := by
  cases NDEBUG <;> exact ⟨_, rfl, rfl, rfl, rfl⟩

/-! ## C2: running without a panel file -/

/-- C2 (counterexample). The argument list `-ref r.txt -alt a.txt -plaf p.txt`
supplies the three required files and has no `-panel`; `init` and `parse`
succeed, and `checkInput` raises `FileNameMissing("Reference panel")`. -/
theorem checkInput_requires_panel :
    supplies "-ref" ["-ref", "r.txt", "-alt", "a.txt", "-plaf", "p.txt"] = true ∧
    supplies "-alt" ["-ref", "r.txt", "-alt", "a.txt", "-plaf", "p.txt"] = true ∧
    supplies "-plaf" ["-ref", "r.txt", "-alt", "a.txt", "-plaf", "p.txt"] = true ∧
    "-panel" ∉ ["-ref", "r.txt", "-alt", "a.txt", "-plaf", "p.txt"] ∧
    ∃ st, parse (fun _ => none) (init none none
        (fresh ["-ref", "r.txt", "-alt", "a.txt", "-plaf", "p.txt"])) = .ok st ∧
      checkInput st = .error (.FileNameMissing "Reference panel", st) :=
  ⟨by decide, by decide, by decide, by decide, _, rfl, rfl⟩

/-- C2 (amended). For every argument list that supplies `-ref`, `-alt` and `-plaf`
each with a non-empty value not beginning with a dash, contains no `-panel`,
and on which `init` followed by `parse` succeeds: `checkInput` returns
normally when the list contains `-noPanel`, and raises
`FileNameMissing("Reference panel")` when it does not. -/
theorem checkInput_without_panel (convert : String → Option Nat)
    (cd ver : Option String) (args : List String) (st : PfDeconvIO)
    (href : supplies "-ref" args = true) (halt : supplies "-alt" args = true)
    (hplaf : supplies "-plaf" args = true) (hpanel : "-panel" ∉ args)
    (hparse : parse convert (init cd ver (fresh args)) = .ok st) :
    ("-noPanel" ∈ args → checkInput st = .ok st) ∧
    ("-noPanel" ∉ args →
      checkInput st = .error (.FileNameMissing "Reference panel", st)) := by
  have hfile : ∀ flag, flag = "-ref" ∨ flag = "-alt" ∨ flag = "-plaf" →
      supplies flag args = true → fileNameOf flag st ≠ "" := by
    intro flag hflag hsup
    simp only [supplies, Bool.and_eq_true, List.contains, List.elem_eq_mem,
      decide_eq_true_eq] at hsup
    have hinit : fileNamePending flag (init cd ver (fresh args)) :=
      ⟨hsup.2, Or.inr hsup.1⟩
    obtain ⟨⟨-, hd⟩, hend⟩ := parseLoop_invariant convert (fileNamePending flag)
      (fileNamePending_step convert flag hflag) _ _ st hinit hparse
    rw [hend] at hd
    rcases hd with h | h
    · exact h
    · exact absurd h (List.not_mem_nil _)
  have h1 : st.refFileName_ ≠ "" := hfile "-ref" (Or.inl rfl) href
  have h2 : st.altFileName_ ≠ "" := hfile "-alt" (Or.inr (Or.inl rfl)) halt
  have h3 : st.plafFileName_ ≠ "" := hfile "-plaf" (Or.inr (Or.inr rfl)) hplaf
  have hinit : panelAbsent ("-noPanel" ∈ args) (init cd ver (fresh args)) :=
    ⟨hpanel, rfl, Or.inr ⟨rfl, Iff.rfl⟩⟩
  obtain ⟨⟨-, hname, hd⟩, hend⟩ := parseLoop_invariant convert
    (panelAbsent ("-noPanel" ∈ args)) (panelAbsent_step convert _) _ _ st hinit hparse
  rw [hend] at hd
  constructor
  · intro hnp
    rcases hd with ⟨hoff, -⟩ | ⟨-, hiff⟩
    · simp [checkInput, String_length_eq_zero, h1, h2, h3, usePanel, hoff]
    · exact absurd (hiff.mp hnp) (List.not_mem_nil _)
  · intro hnp
    rcases hd with ⟨-, h⟩ | ⟨hon, -⟩
    · exact absurd h hnp
    · simp [checkInput, String_length_eq_zero, h1, h2, h3, usePanel, hon, hname]

/-- C2 (witness): the amended statement applied to `-ref r.txt -alt a.txt -noPanel
-plaf p.txt`. -/
theorem checkInput_without_panel_witness :
    supplies "-ref" ["-ref", "r.txt", "-alt", "a.txt", "-noPanel", "-plaf", "p.txt"] = true ∧
    supplies "-alt" ["-ref", "r.txt", "-alt", "a.txt", "-noPanel", "-plaf", "p.txt"] = true ∧
    supplies "-plaf" ["-ref", "r.txt", "-alt", "a.txt", "-noPanel", "-plaf", "p.txt"] = true ∧
    "-panel" ∉ ["-ref", "r.txt", "-alt", "a.txt", "-noPanel", "-plaf", "p.txt"] ∧
    "-noPanel" ∈ ["-ref", "r.txt", "-alt", "a.txt", "-noPanel", "-plaf", "p.txt"] ∧
    ∃ st, parse (fun _ => none) (init none none
        (fresh ["-ref", "r.txt", "-alt", "a.txt", "-noPanel", "-plaf", "p.txt"])) = .ok st ∧
      checkInput st = .ok st :=
  ⟨by decide, by decide, by decide, by decide, by decide, _, rfl,
    (checkInput_without_panel (fun _ => none) none none
      ["-ref", "r.txt", "-alt", "a.txt", "-noPanel", "-plaf", "p.txt"] _
      (by decide) (by decide) (by decide) (by decide) rfl).1 (by decide)⟩

/-! ## C3: `-panel` together with `-noPanel` -/

/-- C3 (counterexample). On `-panel "" -noPanel` both flags occur, `-panel` is
followed by a value token (the empty one), and `parse` returns normally with
panel use switched off. -/
theorem parse_accepts_empty_panel_then_noPanel :
    ("-panel" ∈ ["-panel", "", "-noPanel"] ∧ "-noPanel" ∈ ["-panel", "", "-noPanel"]) ∧
    ∃ st, parse (fun _ => none) (init none none (fresh ["-panel", "", "-noPanel"]))
      = .ok st ∧ usePanel st = false ∧ st.panelFileName_ = "" :=
  ⟨⟨by decide, by decide⟩, _, rfl, rfl, rfl⟩

/-- C3 (amended). For every argument list in which `-panel` and `-noPanel` both
occur and no `-panel` is directly followed by the empty token, `parse` (after
`init`) does not return normally: it throws an exception. -/
theorem parse_panel_with_noPanel_fails (convert : String → Option Nat)
    (cd ver : Option String) (args : List String)
    (hpanel : "-panel" ∈ args) (hnoPanel : "-noPanel" ∈ args)
    (hvalues : panelValuesNonEmpty args = true) :
    ∃ e s, parse convert (init cd ver (fresh args)) = .error (e, s) ∧
      e.isException = true := by
  have hne : (init cd ver (fresh args)).argv_i ≠ [] := by
    show args ≠ []
    exact List.ne_nil_of_mem hpanel
  cases hres : parse convert (init cd ver (fresh args)) with
  | error es =>
    obtain ⟨e, s⟩ := es
    exact ⟨e, s, rfl, parse_error convert _ s e hne hres⟩
  | ok st2 =>
    exfalso
    have hinit : panelConflict (init cd ver (fresh args)) :=
      ⟨hvalues, Or.inl ⟨hnoPanel, rfl, Or.inr hpanel⟩⟩
    obtain ⟨⟨-, hd⟩, hend⟩ := parseLoop_invariant convert panelConflict
      (panelConflict_step convert) _ _ st2 hinit hres
    rw [hend] at hd
    rcases hd with ⟨hmem, -⟩ | ⟨hmem, -⟩ <;> exact absurd hmem (List.not_mem_nil _)

/-- C3 (witness): the amended statement applied to `-noPanel -panel panel.txt`. -/
theorem parse_panel_with_noPanel_fails_witness :
    "-panel" ∈ ["-noPanel", "-panel", "panel.txt"] ∧
    "-noPanel" ∈ ["-noPanel", "-panel", "panel.txt"] ∧
    panelValuesNonEmpty ["-noPanel", "-panel", "panel.txt"] = true ∧
    ∃ e s, parse (fun _ => none) (init none none
      (fresh ["-noPanel", "-panel", "panel.txt"])) = .error (e, s) ∧
      e.isException = true :=
  ⟨by decide, by decide, by decide,
    parse_panel_with_noPanel_fails (fun _ => none) none none
      ["-noPanel", "-panel", "panel.txt"] (by decide) (by decide) (by decide)⟩

/-! ## C4: `checkInput` -/

/-- C4. `checkInput` raises `FileNameMissing` exactly when the ref, alt or PLAF
file name is empty, or panel use is enabled and the panel file name is empty;
the exception names the first missing item in the order Ref count, Alt count,
PLAF, Reference panel; in every other case it returns normally with the state
unchanged. -/
theorem checkInput_spec (st : PfDeconvIO) :
    ((∃ what st1, checkInput st = .error (.FileNameMissing what, st1)) ↔
      (st.refFileName_ = "" ∨ st.altFileName_ = "" ∨ st.plafFileName_ = "" ∨
        (usePanel st = true ∧ st.panelFileName_ = ""))) ∧
    (st.refFileName_ = "" →
      checkInput st = .error (.FileNameMissing "Ref count", st)) ∧
    (st.refFileName_ ≠ "" → st.altFileName_ = "" →
      checkInput st = .error (.FileNameMissing "Alt count", st)) ∧
    (st.refFileName_ ≠ "" → st.altFileName_ ≠ "" → st.plafFileName_ = "" →
      checkInput st = .error (.FileNameMissing "PLAF", st)) ∧
    (st.refFileName_ ≠ "" → st.altFileName_ ≠ "" → st.plafFileName_ ≠ "" →
      usePanel st = true → st.panelFileName_ = "" →
      checkInput st = .error (.FileNameMissing "Reference panel", st)) ∧
    (¬ (st.refFileName_ = "" ∨ st.altFileName_ = "" ∨ st.plafFileName_ = "" ∨
        (usePanel st = true ∧ st.panelFileName_ = "")) →
      checkInput st = .ok st) := by
  by_cases h1 : st.refFileName_ = "" <;> by_cases h2 : st.altFileName_ = "" <;>
  by_cases h3 : st.plafFileName_ = "" <;> by_cases h4 : st.panelFileName_ = "" <;>
  by_cases h5 : usePanel st = true <;>
  simp [checkInput, String_length_eq_zero, h1, h2, h3, h4, h5]

/-! ## C5: asking for help -/

/-- C5 (evaluation at the failing input). Constructing `PfDeconvIO` from `["-h"]`
or from `["-help"]` sets the help flag during `parse` and then raises
`FileNameMissing("Ref count")` in `checkInput`; no configuration is produced. -/
theorem ctor_help_needs_files (NDEBUG : Bool) (cd ver : Option String)
    (convert : String → Option Nat) (readAtMarker : String → Except Err AtMarker) :
    (∃ st, PfDeconvIO_ctor NDEBUG cd ver convert readAtMarker ["-h"]
        = .error (.FileNameMissing "Ref count", st) ∧ help st = true) ∧
    (∃ st, PfDeconvIO_ctor NDEBUG cd ver convert readAtMarker ["-help"]
        = .error (.FileNameMissing "Ref count", st) ∧ help st = true) := by
  constructor <;>
  simp [PfDeconvIO_ctor, parse, parseLoop, parseBody, init, fresh, set_help,
    set_panel, set_seed, checkInput, help]

/-! ## C6: a string flag without a value -/

/-- C6. When the loop of `parse` stands on one of the flags `-ref`, `-alt`,
`-plaf`, `-o` (or `-panel` while panel use is enabled) and that flag is the
last token or the next token begins with a dash, `parse` raises `NotEnoughArg`
carrying the flag; at the throw only the iterator has moved, so the target
member (and every other member) is unchanged. -/
theorem parse_notEnoughArg (convert : String → Option Nat) (st : PfDeconvIO)
    (f : String) (rest : List String)
    (hpos : st.argv_i = f :: rest)
    (hf : f = "-ref" ∨ f = "-alt" ∨ f = "-plaf" ∨ f = "-o" ∨
      (f = "-panel" ∧ usePanel st = true))
    (hnext : rest = [] ∨ ∃ t r, rest = t :: r ∧ beginsWithDash t = true) :
    (∀ fuel, parseLoop convert (fuel + 1) st
      = .error (.NotEnoughArg f, { st with argv_i := rest })) ∧
    parse convert st = .error (.NotEnoughArg f, { st with argv_i := rest }) := by
  have hb := parseBody_notEnoughArg convert st f rest hpos hf hnext
  refine ⟨fun fuel => ?_, ?_⟩
  · simp [parseLoop, hb]
  · simp [parse, parseLoop, hb]

/-- C6 (witness): the statement applied to the argument list `-o -k` after `init`. -/
theorem parse_notEnoughArg_witness :
    (init none none (fresh ["-o", "-k"])).argv_i = "-o" :: ["-k"] ∧
    beginsWithDash "-k" = true ∧
    (∀ fuel, parseLoop (fun _ => none) (fuel + 1) (init none none (fresh ["-o", "-k"]))
      = .error (.NotEnoughArg "-o",
          { init none none (fresh ["-o", "-k"]) with argv_i := ["-k"] })) ∧
    parse (fun _ => none) (init none none (fresh ["-o", "-k"]))
      = .error (.NotEnoughArg "-o",
          { init none none (fresh ["-o", "-k"]) with argv_i := ["-k"] }) :=
  ⟨rfl, rfl,
    parse_notEnoughArg (fun _ => none) (init none none (fresh ["-o", "-k"])) "-o" ["-k"]
      rfl (Or.inr (Or.inr (Or.inr (Or.inl rfl)))) (Or.inr ⟨"-k", [], rfl, rfl⟩)⟩

/-! ## C7: unknown arguments -/

/-- C7. When the loop of `parse` stands on a token that is not one of the thirteen
recognised flags, it raises `UnknowArg` carrying exactly that token, with the
state unchanged; in particular every argument list whose first token is not a
recognised flag is rejected with that first token named. -/
theorem parse_unknowArg (convert : String → Option Nat) (tok : String)
    (htok : tok ∉ recognisedFlags) :
    (∀ (st : PfDeconvIO) (rest : List String) (fuel : Nat), st.argv_i = tok :: rest →
      parseBody convert st = .error (.UnknowArg tok, st) ∧
      parseLoop convert (fuel + 1) st = .error (.UnknowArg tok, st) ∧
      parse convert st = .error (.UnknowArg tok, st)) ∧
    (∀ (cd ver : Option String) (rest : List String),
      parse convert (init cd ver (fresh (tok :: rest)))
        = .error (.UnknowArg tok, init cd ver (fresh (tok :: rest)))) := by
  simp only [recognisedFlags, List.mem_cons, List.mem_singleton, not_or, List.mem_nil_iff,
    not_false_eq_true, and_true] at htok
  obtain ⟨h1, h2, h3, h4, h5, h6, h7, h8, h9, h10, h11, h12, h13⟩ := htok
  have key : ∀ (st : PfDeconvIO) (rest : List String), st.argv_i = tok :: rest →
      parseBody convert st = .error (.UnknowArg tok, st) := by
    intro st rest hpos
    simp [parseBody, hpos, h1, h2, h3, h4, h5, h6, h7, h8, h9, h10, h11, h12, h13]
  refine ⟨fun st rest fuel hpos => ?_, fun cd ver rest => ?_⟩
  · have hb := key st rest hpos
    simp [parse, parseLoop, hb]
  · have hb := key (init cd ver (fresh (tok :: rest))) rest rfl
    simp [parse, parseLoop, hb]

/-- C7 (witness): the statement applied to the token `-verbose`. -/
theorem parse_unknowArg_witness :
    "-verbose" ∉ recognisedFlags ∧
    parse (fun _ => none) (init none none (fresh ["-verbose", "-ref", "r.txt"]))
      = .error (.UnknowArg "-verbose",
          init none none (fresh ["-verbose", "-ref", "r.txt"])) :=
  ⟨by decide,
    (parse_unknowArg (fun _ => none) "-verbose" (by decide)).2 none none ["-ref", "r.txt"]⟩

/-! ## C8: string flags and their values -/

/-- The constructor on the empty argument list returns at lines 38-41 with the
help flag set, before the call of `parse` at line 43: `parse`, whose only call
is that one, never runs on an empty `argv_`. -/
theorem ctor_empty_argv_returns_before_parse (NDEBUG : Bool) (cd ver : Option String)
    (convert : String → Option Nat) (readAtMarker : String → Except Err AtMarker) :
    PfDeconvIO_ctor NDEBUG cd ver convert readAtMarker []
      = .ok (set_help true (init cd ver (fresh []))) :=
  rfl

/-- C8. For every argument list on which `parse` is run (a non-empty one: the
constructor returns before `parse` when `argv_` is empty) that is made only
of pairs (flag, value) with flag among `-ref`, `-alt`, `-plaf`, `-panel`, `-o`
and each value not beginning with a dash, `parse` run after `init` succeeds;
afterwards each of the five string members equals the value that follows the
last occurrence of its flag, or its initial value when the flag is absent,
the iterator is at the end, and no other member has changed. -/
theorem parse_string_flags (convert : String → Option Nat) (cd ver : Option String)
    (pairs : List (String × String)) (hne : pairs ≠ [])
    (hpairs : ∀ q ∈ pairs, q.1 ∈ stringFlags ∧ beginsWithDash q.2 = false) :
    parse convert (init cd ver (fresh (flagValueArgs pairs)))
      = .ok { init cd ver (fresh (flagValueArgs pairs)) with
          argv_i := []
          refFileName_ := lastValue "-ref"
            (init cd ver (fresh (flagValueArgs pairs))).refFileName_ pairs
          altFileName_ := lastValue "-alt"
            (init cd ver (fresh (flagValueArgs pairs))).altFileName_ pairs
          plafFileName_ := lastValue "-plaf"
            (init cd ver (fresh (flagValueArgs pairs))).plafFileName_ pairs
          panelFileName_ := lastValue "-panel"
            (init cd ver (fresh (flagValueArgs pairs))).panelFileName_ pairs
          prefix_ := lastValue "-o"
            (init cd ver (fresh (flagValueArgs pairs))).prefix_ pairs } := by
  cases pairs with
  | nil => exact absurd rfl hne
  | cons p ps =>
    exact parseLoop_pairs convert ps p _ (init cd ver (fresh (flagValueArgs (p :: ps))))
      hpairs rfl rfl (Nat.le_succ _)

/-- C8 (witness): the statement applied to `-ref r1.txt -o out -ref r2.txt`. -/
theorem parse_string_flags_witness :
    ([("-ref", "r1.txt"), ("-o", "out"), ("-ref", "r2.txt")] : List (String × String)) ≠ [] ∧
    (∀ q ∈ ([("-ref", "r1.txt"), ("-o", "out"), ("-ref", "r2.txt")] :
        List (String × String)), q.1 ∈ stringFlags ∧ beginsWithDash q.2 = false) ∧
    ∃ st, parse (fun _ => none) (init none none
        (fresh ["-ref", "r1.txt", "-o", "out", "-ref", "r2.txt"])) = .ok st ∧
      st.refFileName_ = "r2.txt" ∧ st.prefix_ = "out" ∧ st.altFileName_ = "" ∧
      st.kStrain_ = 5 := by
  refine ⟨by decide, by decide, _,
    parse_string_flags (fun _ => none) none none
      [("-ref", "r1.txt"), ("-o", "out"), ("-ref", "r2.txt")] (by decide) (by decide),
    ?_, ?_, ?_, ?_⟩ <;> rfl

/-! ## C9: default settings -/

/-- C9. After `init` followed by a successful `parse` of an argument list that
contains none of `-o`, `-p`, `-k`, `-nSample`, `-rate`, `-noPanel`, `-seed`,
`-h`, `-help`, the configuration has prefix `pf3k-pfDeconv`, precision 8,
`kStrain_` 5, `nMcmcSample_` 1000, thinning rate 5, panel use enabled, help
false and `seed_set_` false. -/
theorem parse_keeps_defaults (convert : String → Option Nat)
    (cd ver : Option String) (args : List String) (st : PfDeconvIO)
    (hnone : ∀ t ∈ args, t ∉ settingFlags)
    (hok : parse convert (init cd ver (fresh args)) = .ok st) :
    st.prefix_ = "pf3k-pfDeconv" ∧ st.precision_ = 8 ∧ st.kStrain_ = 5 ∧
    st.nMcmcSample_ = 1000 ∧ st.mcmcMachineryRate_ = 5 ∧ usePanel st = true ∧
    help st = false ∧ st.seed_set_ = false := by
  have key := parseLoop_invariant convert
    (fun s => (s.prefix_ = "pf3k-pfDeconv" ∧ s.precision_ = 8 ∧ s.kStrain_ = 5 ∧
      s.nMcmcSample_ = 1000 ∧ s.mcmcMachineryRate_ = 5 ∧ usePanel s = true ∧
      help s = false ∧ s.seed_set_ = false) ∧ ∀ t ∈ s.argv_i, t ∉ settingFlags)
    (by
      intro s s1 x rest hP hb hx
      obtain ⟨hf, hall⟩ := hP
      obtain ⟨tok, r, hpos, hcase⟩ := parseBody_ok convert s s1 hb
      have htok : tok ∉ settingFlags := hall tok (by rw [hpos]; exact List.mem_cons_self _ _)
      have hsub : ∀ t ∈ r, t ∉ settingFlags := fun t ht =>
        hall t (by rw [hpos]; exact List.mem_cons_of_mem _ ht)
      simp only [settingFlags, List.mem_cons, List.mem_singleton, List.mem_nil_iff,
        or_false, not_or] at htok
      obtain ⟨t1, t2, t3, t4, t5, t6, t7, t8, t9⟩ := htok
      rcases hcase with ⟨v, r1, hr, -, hc⟩ | ⟨h, -⟩ | ⟨h, -⟩
      · have hrest : ∀ t ∈ rest, t ∉ settingFlags := by
          intro t ht
          apply hsub
          have : s1.argv_i = v :: r1 := by
            rcases hc with ⟨-, h⟩ | ⟨-, h⟩ | ⟨-, h⟩ | ⟨-, -, h⟩ | ⟨-, h⟩ | ⟨-, _, -, h⟩ |
              ⟨-, _, -, h⟩ | ⟨-, _, -, h⟩ | ⟨-, _, -, h⟩ | ⟨-, _, -, h⟩ <;> rw [h, hr]
          rw [this] at hx
          obtain ⟨-, rfl⟩ := List.cons.inj hx
          rw [hr]; exact List.mem_cons_of_mem _ ht
        rcases hc with ⟨-, h⟩ | ⟨-, h⟩ | ⟨-, h⟩ | ⟨-, -, h⟩ | ⟨h, -⟩ | ⟨h, -⟩ |
              ⟨h, -⟩ | ⟨h, -⟩ | ⟨h, -⟩ | ⟨h, -⟩
        · subst h; exact ⟨hf, hrest⟩
        · subst h; exact ⟨hf, hrest⟩
        · subst h; exact ⟨hf, hrest⟩
        · subst h; exact ⟨hf, hrest⟩
        · exact absurd h t1
        · exact absurd h t2
        · exact absurd h t3
        · exact absurd h t4
        · exact absurd h t5
        · exact absurd h t7
      · exact absurd h t6
      · rcases h with h | h
        · exact absurd h t8
        · exact absurd h t9)
  have hinit : (fun s : PfDeconvIO => (s.prefix_ = "pf3k-pfDeconv" ∧ s.precision_ = 8 ∧
      s.kStrain_ = 5 ∧ s.nMcmcSample_ = 1000 ∧ s.mcmcMachineryRate_ = 5 ∧
      usePanel s = true ∧ help s = false ∧ s.seed_set_ = false) ∧
      ∀ t ∈ s.argv_i, t ∉ settingFlags) (init cd ver (fresh args)) :=
    ⟨⟨rfl, rfl, rfl, rfl, rfl, rfl, rfl, rfl⟩, hnone⟩
  exact (key _ _ _ hinit hok).1.1

/-- C9 (witness): the statement applied to `-ref r.txt -alt a.txt -plaf p.txt
-panel panel.txt`. -/
theorem parse_keeps_defaults_witness :
    (∀ t ∈ ["-ref", "r.txt", "-alt", "a.txt", "-plaf", "p.txt",
        "-panel", "panel.txt"], t ∉ settingFlags) ∧
    (∃ st, parse (fun _ => none) (init none none
        (fresh ["-ref", "r.txt", "-alt", "a.txt", "-plaf", "p.txt",
          "-panel", "panel.txt"])) = .ok st ∧
      st.prefix_ = "pf3k-pfDeconv" ∧ st.precision_ = 8 ∧ st.kStrain_ = 5 ∧
      st.nMcmcSample_ = 1000 ∧ st.mcmcMachineryRate_ = 5 ∧ usePanel st = true ∧
      help st = false ∧ st.seed_set_ = false) :=
  ⟨by decide, _, rfl,
    parse_keeps_defaults (fun _ => none) none none
      ["-ref", "r.txt", "-alt", "a.txt", "-plaf", "p.txt", "-panel", "panel.txt"]
      _ (by decide) rfl⟩

/-! ## C10: the formula computed by `calcLLK` -/

/-- C10. For all `ref`, `alt`, `w`, `err`, `fac` and every function `logBeta`,
`calcLLK` equals `logBeta(alt + w1·fac, ref + (1−w1)·fac) − logBeta(w1·fac,
(1−w1)·fac)` with `w1 = w + err·(1 − 2w)`, which is the formula
`beta_binom_llk` of the specification: the alt count is paired with `w1` and
the ref count with `1 − w1`. -/
theorem calcLLK_eq {R : Type} [Field R] (logBeta : R → R → R)
    (ref alt w err fac : R) :
    calcLLK logBeta ref alt w err fac
      = logBeta (alt + (w + err * (1 - 2 * w)) * fac)
          (ref + (1 - (w + err * (1 - 2 * w))) * fac)
        - logBeta ((w + err * (1 - 2 * w)) * fac)
          ((1 - (w + err * (1 - 2 * w))) * fac) ∧
    calcLLK logBeta ref alt w err fac = beta_binom_llk logBeta ref alt w err fac :=
  ⟨rfl, rfl⟩

/-! ## Lemmas about the sums of `utility.cpp` -/

/-- The accumulation loop `tmp += value` started from `a` adds the sum of the
list to `a`. -/
theorem foldl_add_eq_sum {R : Type} [Field R] (l : List R) (a : R) :
    l.foldl (fun tmp value => tmp + value) a = a + l.sum := by
  induction l generalizing a with
  | nil => simp
  | cons x xs ih => simp [ih, add_assoc]

/-- `sumOfVec` is the sum of the elements. -/
theorem sumOfVec_eq_sum {R : Type} [Field R] (l : List R) : sumOfVec l = l.sum := by
  simp [sumOfVec, foldl_add_eq_sum]

/-- The nested accumulation of `sumOfMat` started from `a` adds the sums of
the rows to `a`. -/
theorem foldl_rows_eq_sum {R : Type} [Field R] (m : List (List R)) (a : R) :
    m.foldl (fun tmp array => array.foldl (fun tmp value => tmp + value) tmp) a
      = a + (m.map sumOfVec).sum := by
  induction m generalizing a with
  | nil => simp
  | cons row rows ih =>
    simp only [List.foldl_cons, List.map_cons, List.sum_cons]
    rw [ih, foldl_add_eq_sum, sumOfVec_eq_sum, add_assoc]

/-- `sumOfMat` is the sum over the rows of `sumOfVec`. -/
theorem sumOfMat_eq_sum {R : Type} [Field R] (m : List (List R)) :
    sumOfMat m = (m.map sumOfVec).sum := by
  simp [sumOfMat, foldl_rows_eq_sum]

/-- Dividing every element by `s` divides the sum by `s`. -/
theorem sum_map_div {R : Type} [Field R] (l : List R) (s : R) :
    (l.map (fun x => x / s)).sum = l.sum / s := by
  induction l with
  | nil => simp
  | cons x xs ih => simp [ih, add_div]

/-- The loop of `computeCdf`, started with `cumsum = a` and `cdf = pre`, ends
with `cumsum = a + sum` and has appended the running sums to `cdf`. -/
theorem computeCdf_fold {R : Type} [Field R] (l : List R) (a : R) (pre : List R) :
    l.foldl (fun (state : R × List R) (x : R) =>
        (state.1 + x, state.2 ++ [state.1 + x])) (a, pre)
      = (a + l.sum,
          pre ++ (List.range l.length).map (fun j => a + (l.take (j + 1)).sum)) := by
  induction l generalizing a pre with
  | nil => simp
  | cons x xs ih =>
    simp only [List.foldl_cons, ih, List.sum_cons, List.length_cons,
      List.range_succ_eq_map, List.map_cons, List.map_map, List.take_succ_cons,
      List.take_zero, List.sum_nil, add_zero, List.append_assoc, List.singleton_append,
      add_assoc]
    rfl

/-- The vector that `computeCdf` builds: the running sums of `dist`. -/
theorem computeCdf_eq {R : Type} [Field R] (NDEBUG : Bool) (dist : List R) :
    computeCdf NDEBUG dist
      = .ok ((List.range dist.length).map (fun j => (dist.take (j + 1)).sum)) := by
  simp [computeCdf, computeCdf_fold]

/-- The last of the running sums of a non-empty list is the sum of the list. -/
theorem running_sums_getLast {R : Type} [Field R] (dist : List R) (hne : dist ≠ []) :
    ((List.range dist.length).map (fun j => (dist.take (j + 1)).sum)).getLast?
      = some dist.sum := by
  obtain ⟨n, hn⟩ : ∃ n, dist.length = n + 1 :=
    ⟨dist.length - 1, by
      have := List.length_pos.mpr hne
      omega⟩
  rw [hn, List.range_succ, List.map_append, List.map_singleton,
    List.getLast?_append_of_ne_nil _ (List.cons_ne_nil _ _)]
  simp [← hn]

/-- After `normalizeBySum` the elements of a vector with non-zero sum add up
to 1. -/
theorem sumOfVec_normalizeBySum {R : Type} [Field R] (v : List R)
    (h : sumOfVec v ≠ 0) : sumOfVec (normalizeBySum v) = 1 := by
  have hs : v.sum ≠ 0 := by rwa [sumOfVec_eq_sum] at h
  rw [sumOfVec_eq_sum, normalizeBySum, sumOfVec_eq_sum, sum_map_div, div_self hs]

/-- Element `i` of the vector after `normalizeBySum` is element `i` of the
vector before, divided by its sum. -/
theorem normalizeBySum_get {R : Type} [Field R] (v : List R) (i : Nat) :
    (normalizeBySum v).get? i = (v.get? i).map (fun x => x / sumOfVec v) := by
  simp [normalizeBySum, List.get?_eq_getElem?, List.getElem?_map]

/-- After `normalizeBySumMat` the entries of a matrix with non-zero sum add up
to 1. -/
theorem sumOfMat_normalizeBySumMat {R : Type} [Field R] (m : List (List R))
    (h : sumOfMat m ≠ 0) : sumOfMat (normalizeBySumMat m) = 1 := by
  have key : ∀ (s : R) (rows : List (List R)),
      ((rows.map (fun row => row.map (fun x => x / s))).map sumOfVec).sum
        = (rows.map sumOfVec).sum / s := by
    intro s rows
    induction rows with
    | nil => simp
    | cons row rest ih =>
      simp only [List.map_cons, List.sum_cons, ih, sumOfVec_eq_sum, sum_map_div, add_div]
  have hs : (m.map sumOfVec).sum ≠ 0 := by rwa [sumOfMat_eq_sum] at h
  rw [sumOfMat_eq_sum, normalizeBySumMat, key, sumOfMat_eq_sum, div_self hs]

/-! ## Lemmas about the loop of `calcLLKs` -/

/-- Invariant of the loop of `calcLLKs`. Started at counter `i` with `tmpLLKs`
of size `length`, with enough fuel, with the three input vectors defined at
every index that is still to be visited and the assertion true there, the
loop returns normally; the input vectors are as before, `tmpLLKs` still has
size `length`, its entries below `i` are as before and every later entry `k`
holds `calcLLK` of the inputs at index `index + (k - i)`. -/
theorem calcLLKsLoop_ok {R : Type} [LinearOrderedField R] (NDEBUG : Bool)
    (logBeta : R → R → R) (length : Nat) :
    ∀ (fuel : Nat) (fr : CalcLLKsFrame R), fr.tmpLLKs.length = length →
      fr.i ≤ length → length - fr.i < fuel →
      (∀ k, fr.i ≤ k → k < length → ∃ r a w,
        fr.refCount.get? (fr.index + (k - fr.i)) = some r ∧
        fr.altCount.get? (fr.index + (k - fr.i)) = some a ∧
        fr.expectedWsaf.get? (fr.index + (k - fr.i)) = some w ∧
        (NDEBUG = true ∨ 0 ≤ w)) →
      ∃ out, calcLLKsLoop NDEBUG logBeta length fuel fr = .ok out ∧
        out.refCount = fr.refCount ∧ out.altCount = fr.altCount ∧
        out.expectedWsaf = fr.expectedWsaf ∧ out.tmpLLKs.length = length ∧
        (∀ k, k < fr.i → out.tmpLLKs.get? k = fr.tmpLLKs.get? k) ∧
        (∀ k, fr.i ≤ k → k < length → ∃ r a w,
          fr.refCount.get? (fr.index + (k - fr.i)) = some r ∧
          fr.altCount.get? (fr.index + (k - fr.i)) = some a ∧
          fr.expectedWsaf.get? (fr.index + (k - fr.i)) = some w ∧
          out.tmpLLKs.get? k = some (calcLLK logBeta r a w defaultErr defaultFac)) := by
  intro fuel
  induction fuel with
  | zero => intro fr _ _ hfuel; omega
  | succ n ih =>
    intro fr hlen hi hfuel hin
    unfold calcLLKsLoop
    by_cases hlt : fr.i < length
    · rw [if_pos hlt]
      obtain ⟨r, a, w, hr, ha, hw, hassert⟩ := hin fr.i (Nat.le_refl _) hlt
      simp only [Nat.sub_self, Nat.add_zero] at hr ha hw
      have hcond : (!(NDEBUG || decide (w ≥ 0))) = false := by
        rcases hassert with h | h
        · simp [h]
        · simp [h]
      simp only [hw, hcond, hr, ha, hlen, hlt, if_true]
      have hin1 : ∀ k, fr.i + 1 ≤ k → k < length → ∃ r a w,
          fr.refCount.get? (fr.index + 1 + (k - (fr.i + 1))) = some r ∧
          fr.altCount.get? (fr.index + 1 + (k - (fr.i + 1))) = some a ∧
          fr.expectedWsaf.get? (fr.index + 1 + (k - (fr.i + 1))) = some w ∧
          (NDEBUG = true ∨ 0 ≤ w) := by
        intro k hk1 hk2
        have he : fr.index + 1 + (k - (fr.i + 1)) = fr.index + (k - fr.i) := by omega
        rw [he]
        exact hin k (by omega) hk2
      obtain ⟨out, hout, h1, h2, h3, h4, h5, h6⟩ := ih
        { fr with
          tmpLLKs := fr.tmpLLKs.set fr.i (calcLLK logBeta r a w defaultErr defaultFac)
          index := fr.index + 1
          i := fr.i + 1 }
        (by simp [hlen]) hlt (by simp only; omega) hin1
      refine ⟨out, hout, h1, h2, h3, h4, ?_, ?_⟩
      · intro k hk
        rw [h5 k (by simp only; omega)]
        simp only [List.get?_eq_getElem?]
        rw [List.getElem?_set_ne (by omega)]
      · intro k hk1 hk2
        by_cases hk : k = fr.i
        · subst hk
          refine ⟨r, a, w, by simpa using hr, by simpa using ha, by simpa using hw, ?_⟩
          rw [h5 fr.i (by simp only; omega)]
          simp only [List.get?_eq_getElem?]
          rw [List.getElem?_set_self (by omega)]
        · obtain ⟨r1, a1, w1, hr1, ha1, hw1, hv⟩ := h6 k (by simp only; omega) hk2
          have he : fr.index + 1 + (k - (fr.i + 1)) = fr.index + (k - fr.i) := by omega
          simp only [he] at hr1 ha1 hw1
          exact ⟨r1, a1, w1, hr1, ha1, hw1, hv⟩
    · rw [if_neg hlt]
      refine ⟨fr, rfl, rfl, rfl, rfl, hlen, fun _ _ => rfl, ?_⟩
      intro k hk1 hk2
      omega

/-- What `calcLLKs` returns when the three vectors are defined on
`[firstIndex, firstIndex + length)` and the assertion holds there. -/
theorem calcLLKs_ok {R : Type} [LinearOrderedField R] (NDEBUG : Bool)
    (logBeta : R → R → R) (refCount altCount expectedWsaf : List R)
    (firstIndex length : Nat)
    (hin : ∀ k, k < length → ∃ r a w,
      refCount.get? (firstIndex + k) = some r ∧
      altCount.get? (firstIndex + k) = some a ∧
      expectedWsaf.get? (firstIndex + k) = some w ∧ (NDEBUG = true ∨ 0 ≤ w)) :
    ∃ out, calcLLKs NDEBUG logBeta refCount altCount expectedWsaf firstIndex length
        = .ok out ∧
      out.refCount = refCount ∧ out.altCount = altCount ∧
      out.expectedWsaf = expectedWsaf ∧ out.tmpLLKs.length = length ∧
      (∀ k, k < length → ∃ r a w,
        refCount.get? (firstIndex + k) = some r ∧
        altCount.get? (firstIndex + k) = some a ∧
        expectedWsaf.get? (firstIndex + k) = some w ∧
        out.tmpLLKs.get? k = some (calcLLK logBeta r a w defaultErr defaultFac)) := by
  obtain ⟨out, hout, h1, h2, h3, h4, -, h6⟩ := calcLLKsLoop_ok NDEBUG logBeta length
    (length + 1)
    { refCount := refCount, altCount := altCount, expectedWsaf := expectedWsaf,
      tmpLLKs := List.replicate length 0, index := firstIndex, i := 0 }
    (by simp) (Nat.zero_le _) (by simp only; omega)
    (fun k _ hk => by simpa using hin k hk)
  exact ⟨out, hout, h1, h2, h3, h4, fun k hk => by simpa using h6 k (Nat.zero_le _) hk⟩

/-! ## Lemmas about the loop of `finalize` -/

/-- The loop of `finalize`, started on a non-empty `indexOfChromStarts_` whose
last entry is `back`, with a list of positions for every chromosome and
enough fuel, returns normally: it has appended the running sums of the sizes
of `position_[k]` for `k` from the current size up to `chrom_.size() - 1`,
and has changed nothing else. -/
theorem finalizeLoop_ok :
    ∀ (fuel : Nat) (st : PfDeconvIO) (back : Nat),
      st.indexOfChromStarts_.getLast? = some back →
      st.chrom_.length ≤ st.position_.length →
      st.chrom_.length - st.indexOfChromStarts_.length < fuel →
      finalizeLoop fuel st = .ok { st with indexOfChromStarts_ :=
        (st.indexOfChromStarts_ ++ runningStarts back
          (((st.position_.drop st.indexOfChromStarts_.length).take
            (st.chrom_.length - st.indexOfChromStarts_.length)).map List.length)) } := by
  intro fuel
  induction fuel with
  | zero => intro st back _ _ hfuel; omega
  | succ n ih =>
    intro st back hback hpos hfuel
    unfold finalizeLoop
    by_cases hlt : st.indexOfChromStarts_.length < st.chrom_.length
    · rw [if_pos hlt]
      have hidx : st.indexOfChromStarts_.length < st.position_.length := by omega
      have hget : st.position_.get? st.indexOfChromStarts_.length
          = some (st.position_[st.indexOfChromStarts_.length]) := by
        simp [List.get?_eq_getElem?, List.getElem?_eq_getElem hidx]
      simp only [hback, hget]
      refine (ih { st with indexOfChromStarts_ := st.indexOfChromStarts_ ++
          [back + (st.position_[st.indexOfChromStarts_.length]).length] }
        (back + (st.position_[st.indexOfChromStarts_.length]).length)
        (by simp) hpos
        (by simp only [List.length_append, List.length_singleton]; omega)).trans ?_
      have hdrop : st.position_.drop st.indexOfChromStarts_.length
          = st.position_[st.indexOfChromStarts_.length]
            :: st.position_.drop (st.indexOfChromStarts_.length + 1) :=
        List.drop_eq_getElem_cons hidx
      obtain ⟨m, hm⟩ : ∃ m, st.chrom_.length - st.indexOfChromStarts_.length = m + 1 :=
        ⟨st.chrom_.length - st.indexOfChromStarts_.length - 1, by omega⟩
      have hm1 : st.chrom_.length - (st.indexOfChromStarts_.length + 1) = m := by omega
      simp only [List.length_append, List.length_singleton, hm1, hm, hdrop,
        List.take_succ_cons, List.map_cons, runningStarts, List.append_assoc,
        List.singleton_append]
    · rw [if_neg hlt]
      have hz : st.chrom_.length - st.indexOfChromStarts_.length = 0 := by omega
      simp [hz, runningStarts]

/-- The running sums are as many as the sizes. -/
theorem runningStarts_length (back : Nat) (sizes : List Nat) :
    (runningStarts back sizes).length = sizes.length := by
  induction sizes generalizing back with
  | nil => rfl
  | cons s rest ih => simp [runningStarts, ih]

/-- When every size is at least 1, every running sum is greater than the
starting value and at most the starting value plus the sum of the sizes. -/
theorem runningStarts_bounds (sizes : List Nat) (hpos : ∀ s ∈ sizes, 1 ≤ s) :
    ∀ (back : Nat), ∀ x ∈ runningStarts back sizes, back < x ∧ x ≤ back + sizes.sum := by
  induction sizes with
  | nil => intro back x hx; simp [runningStarts] at hx
  | cons s rest ih =>
    intro back x hx
    have hs : 1 ≤ s := hpos s (List.mem_cons_self _ _)
    simp only [runningStarts, List.mem_cons] at hx
    simp only [List.sum_cons]
    rcases hx with rfl | hx
    · omega
    · have := ih (fun t ht => hpos t (List.mem_cons_of_mem _ ht)) (back + s) x hx
      omega

/-- When every size is at least 1, the starting value followed by the running
sums is strictly increasing. -/
theorem runningStarts_increasing (sizes : List Nat) (hpos : ∀ s ∈ sizes, 1 ≤ s) :
    ∀ (back : Nat), (back :: runningStarts back sizes).Pairwise (fun a b => a < b) := by
  induction sizes with
  | nil => intro back; simp [runningStarts]
  | cons s rest ih =>
    intro back
    have hs : 1 ≤ s := hpos s (List.mem_cons_self _ _)
    have hrest : ∀ t ∈ rest, 1 ≤ t := fun t ht => hpos t (List.mem_cons_of_mem _ ht)
    rw [List.pairwise_cons]
    refine ⟨?_, ?_⟩
    · intro x hx
      exact (runningStarts_bounds (s :: rest) hpos back x hx).1
    · exact ih hrest (back + s)

/-- The outcome of `finalize` when the three tables are read, the object
enters with an empty `indexOfChromStarts_` and the PLAF table has a list of
positions for every chromosome: the loop builds `builtStarts`, and then the
three assertions of lines 92-96 decide. -/
theorem finalize_eq (NDEBUG : Bool) (readAtMarker : String → Except Err AtMarker)
    (st : PfDeconvIO) (tr ta tp : AtMarker)
    (href : readAtMarker st.refFileName_ = .ok tr)
    (halt : readAtMarker st.altFileName_ = .ok ta)
    (hplaf : readAtMarker st.plafFileName_ = .ok tp)
    (hfresh : st.indexOfChromStarts_ = [])
    (hwf : tp.chrom_.length ≤ tp.position_.length) :
    finalize NDEBUG readAtMarker st =
      if (NDEBUG || (builtStarts tp.position_ tp.chrom_.length).length
            == tp.chrom_.length) = false then
        .error (.AssertionFailed,
          { st with refCount_ := tr.info_, altCount_ := ta.info_, plaf_ := tp.info_,
                    chrom_ := tp.chrom_, position_ := tp.position_,
                    indexOfChromStarts_ := builtStarts tp.position_ tp.chrom_.length })
      else if (NDEBUG || tr.info_.length == tp.info_.length) = false then
        .error (.AssertionFailed,
          { st with refCount_ := tr.info_, altCount_ := ta.info_, plaf_ := tp.info_,
                    chrom_ := tp.chrom_, position_ := tp.position_,
                    indexOfChromStarts_ := builtStarts tp.position_ tp.chrom_.length,
                    nLoci_ := tr.info_.length })
      else if (NDEBUG || ta.info_.length == tr.info_.length) = false then
        .error (.AssertionFailed,
          { st with refCount_ := tr.info_, altCount_ := ta.info_, plaf_ := tp.info_,
                    chrom_ := tp.chrom_, position_ := tp.position_,
                    indexOfChromStarts_ := builtStarts tp.position_ tp.chrom_.length,
                    nLoci_ := tr.info_.length })
      else
        .ok (removeFilesWithSameName
          { st with refCount_ := tr.info_, altCount_ := ta.info_, plaf_ := tp.info_,
                    chrom_ := tp.chrom_, position_ := tp.position_,
                    indexOfChromStarts_ := builtStarts tp.position_ tp.chrom_.length,
                    nLoci_ := tr.info_.length }) := by
  have hloop : finalizeLoop (tp.chrom_.length + 1)
      { st with
        refCount_ := tr.info_, altCount_ := ta.info_, plaf_ := tp.info_,
        chrom_ := tp.chrom_, position_ := tp.position_,
        indexOfChromStarts_ := [0] }
      = .ok { st with
          refCount_ := tr.info_, altCount_ := ta.info_, plaf_ := tp.info_,
          chrom_ := tp.chrom_, position_ := tp.position_,
          indexOfChromStarts_ := builtStarts tp.position_ tp.chrom_.length } :=
    finalizeLoop_ok (tp.chrom_.length + 1)
      { st with
        refCount_ := tr.info_, altCount_ := ta.info_, plaf_ := tp.info_,
        chrom_ := tp.chrom_, position_ := tp.position_,
        indexOfChromStarts_ := [0] } 0 rfl hwf
      (by simp only [List.length_singleton]; omega)
  unfold finalize
  simp only [href, halt, hplaf, hfresh, List.nil_append, cassert, List.length_nil,
    beq_self_eq_true, Bool.or_true, if_true, hloop]
  cases NDEBUG
  · by_cases h1 : (builtStarts tp.position_ tp.chrom_.length).length = tp.chrom_.length
    · by_cases h2 : tr.info_.length = tp.info_.length
      · by_cases h3 : ta.info_.length = tr.info_.length
        · have h3a : ta.info_.length = tp.info_.length := h3.trans h2
          simp [h1, h2, h3, h3a]
        · have h3a : ¬ ta.info_.length = tp.info_.length := fun h => h3 (h.trans h2.symm)
          simp [h1, h2, h3, h3a]
      · simp [h1, h2]
    · simp [h1]
  · simp

/-! ## C11: both counts zero -/

/-- C11. For every `w`, `err` and `fac`, and whatever the function `logBeta`
is, `calcLLK(0, 0, w, err, fac) = 0`. Consequently, when `refCount` and
`altCount` are zero on `[firstIndex, firstIndex + length)` (and
`expectedWsaf` is defined there, and non-negative when assertions are
enabled), `calcLLKs` returns `length` entries that are all 0. -/
theorem calcLLK_zero_counts {R : Type} [LinearOrderedField R] :
    (∀ (logBeta : R → R → R) (w err fac : R), calcLLK logBeta 0 0 w err fac = 0) ∧
    (∀ (NDEBUG : Bool) (logBeta : R → R → R) (refCount altCount expectedWsaf : List R)
      (firstIndex length : Nat),
      (∀ k, k < length → refCount.get? (firstIndex + k) = some 0 ∧
        altCount.get? (firstIndex + k) = some 0 ∧
        ∃ w, expectedWsaf.get? (firstIndex + k) = some w ∧ (NDEBUG = true ∨ 0 ≤ w)) →
      ∃ out, calcLLKs NDEBUG logBeta refCount altCount expectedWsaf firstIndex length
          = .ok out ∧ out.tmpLLKs = List.replicate length 0) := by
  have hzero : ∀ (logBeta : R → R → R) (w err fac : R),
      calcLLK logBeta 0 0 w err fac = 0 := by
    intro logBeta w err fac
    simp [calcLLK]
  refine ⟨hzero, ?_⟩
  intro NDEBUG logBeta refCount altCount expectedWsaf firstIndex length hz
  obtain ⟨out, hout, -, -, -, h4, h5⟩ := calcLLKs_ok NDEBUG logBeta refCount altCount
    expectedWsaf firstIndex length
    (fun k hk => by
      obtain ⟨hr, ha, w, hw, hor⟩ := hz k hk
      exact ⟨0, 0, w, hr, ha, hw, hor⟩)
  refine ⟨out, hout, ?_⟩
  apply List.ext_get?
  intro k
  by_cases hk : k < length
  · obtain ⟨r, a, w, hr, ha, hw, hv⟩ := h5 k hk
    obtain ⟨hr0, ha0, -⟩ := hz k hk
    rw [hr0] at hr
    rw [ha0] at ha
    obtain rfl := Option.some.inj hr
    obtain rfl := Option.some.inj ha
    rw [hv, hzero]
    simp [List.get?_eq_getElem?, List.getElem?_replicate, hk]
  · rw [List.get?_eq_none.mpr (by omega), List.get?_eq_none.mpr (by simp; omega)]

/-- C11 (witness): the statement at `w = 1/4`, and for the range `[1, 3)` of
vectors whose counts are zero there, with `x * y + 7` in place of `logBeta`. -/
theorem calcLLK_zero_counts_witness :
    calcLLK (fun x y : ℚ => x * y + 7) 0 0 (1 / 4) (1 / 100) 100 = 0 ∧
    ∃ out, calcLLKs false (fun x y : ℚ => x * y + 7) [5, 0, 0, 6] [8, 0, 0, 9]
        [0, 1 / 2, 1, 1 / 4] 1 2 = .ok out ∧ out.tmpLLKs = [0, 0] :=
  ⟨calcLLK_zero_counts.1 (fun x y : ℚ => x * y + 7) (1 / 4) (1 / 100) 100,
    calcLLK_zero_counts.2 false (fun x y : ℚ => x * y + 7) [5, 0, 0, 6] [8, 0, 0, 9]
      [0, 1 / 2, 1, 1 / 4] 1 2
      (by
        intro k hk
        have hk2 : k = 0 ∨ k = 1 := by omega
        rcases hk2 with rfl | rfl
        · exact ⟨rfl, rfl, 1 / 2, rfl, Or.inr (by norm_num)⟩
        · exact ⟨rfl, rfl, 1, rfl, Or.inr (by norm_num)⟩)⟩

/-! ## C12: `computeCdf` -/

/-- C12. For every vector `dist`, `computeCdf(dist)` returns (its assertion
holds) a vector of the same length whose element `i` is
`dist[0] + ... + dist[i]`, accumulated from the left as `sumOfVec` does;
hence for every non-empty `dist` the last element is `sumOfVec(dist)`. It is
not forced to be 1: on the one-element vector `[2]` the last element is 2. -/
theorem computeCdf_prefix_sums {R : Type} [Field R] (NDEBUG : Bool)
    (dist : List R) :
    (∃ cdf, computeCdf NDEBUG dist = .ok cdf ∧ cdf.length = dist.length ∧
      (∀ i, i < dist.length → cdf.get? i = some (sumOfVec (dist.take (i + 1)))) ∧
      (dist ≠ [] → cdf.getLast? = some (sumOfVec dist))) ∧
    (∃ cdf, computeCdf NDEBUG ([2] : List R) = .ok cdf ∧ cdf.getLast? = some 2 ∧
      cdf.getLast? ≠ some 1) := by
  constructor
  · refine ⟨_, computeCdf_eq NDEBUG dist, by simp, ?_, ?_⟩
    · intro i hi
      simp [List.get?_eq_getElem?, List.getElem?_map, List.getElem?_range hi,
        sumOfVec_eq_sum]
    · intro hne
      rw [running_sums_getLast dist hne, sumOfVec_eq_sum]
  · refine ⟨_, computeCdf_eq NDEBUG [2], by simp, ?_⟩
    have h21 : (2 : R) ≠ 1 := by
      intro h
      have h0 : (1 : R) = 0 := by
        have h2 : (1 : R) + 1 = 1 + 0 := by rw [one_add_one_eq_two, h, add_zero]
        exact add_left_cancel h2
      exact one_ne_zero h0
    simpa using h21

/-! ## C13: `computeCdf` after `normalizeBySum` -/

/-- C13. For every non-empty vector `v` with `sumOfVec(v) > 0`,
`normalizeBySum` keeps the length of `v` and replaces each `v[i]` by
`v[i] / sumOfVec(v)`, and the last element of `computeCdf` of the result is
exactly 1. -/
theorem normalizeBySum_cdf_last {R : Type} [LinearOrderedField R] (NDEBUG : Bool)
    (v : List R) (hne : v ≠ []) (hpos : 0 < sumOfVec v) :
    (normalizeBySum v).length = v.length ∧
    (∀ i x, v.get? i = some x → (normalizeBySum v).get? i = some (x / sumOfVec v)) ∧
    ∃ cdf, computeCdf NDEBUG (normalizeBySum v) = .ok cdf ∧ cdf.getLast? = some 1 := by
  refine ⟨by simp [normalizeBySum], ?_, ?_⟩
  · intro i x hx
    rw [normalizeBySum_get, hx]; rfl
  · have hne1 : normalizeBySum v ≠ [] := by
      simpa [normalizeBySum] using hne
    refine ⟨_, computeCdf_eq NDEBUG _, ?_⟩
    rw [running_sums_getLast _ hne1, ← sumOfVec_eq_sum,
      sumOfVec_normalizeBySum v (ne_of_gt hpos)]

/-- C13 (witness): the statement applied to the vector `[1, 3]` of rationals,
whose sum is 4. -/
theorem normalizeBySum_cdf_last_witness :
    ([1, 3] : List ℚ) ≠ [] ∧ 0 < sumOfVec ([1, 3] : List ℚ) ∧
    (normalizeBySum ([1, 3] : List ℚ)).length = 2 ∧
    ∃ cdf, computeCdf false (normalizeBySum ([1, 3] : List ℚ)) = .ok cdf ∧
      cdf.getLast? = some 1 :=
  ⟨by simp, by norm_num [sumOfVec],
    (normalizeBySum_cdf_last false ([1, 3] : List ℚ) (by simp)
      (by norm_num [sumOfVec])).1,
    (normalizeBySum_cdf_last false ([1, 3] : List ℚ) (by simp)
      (by norm_num [sumOfVec])).2.2⟩

/-! ## C14: `normalizeBySum` and `normalizeBySumMat` on a sum that is not positive -/

/-- C14 (counterexample). The vector `[1, -3]` and the matrix `[[1], [-3]]`
have sum `-2`, which is not strictly positive; `normalizeBySum` and
`normalizeBySumMat` return normally and have changed their argument, to
`[-1/2, 3/2]` and `[[-1/2], [3/2]]`. -/
theorem normalizeBySum_negative_sum :
    sumOfVec ([1, -3] : List ℚ) = -2 ∧
    normalizeBySum ([1, -3] : List ℚ) = [-1 / 2, 3 / 2] ∧
    normalizeBySum ([1, -3] : List ℚ) ≠ [1, -3] ∧
    sumOfMat ([[1], [-3]] : List (List ℚ)) = -2 ∧
    normalizeBySumMat ([[1], [-3]] : List (List ℚ)) = [[-1 / 2], [3 / 2]] ∧
    normalizeBySumMat ([[1], [-3]] : List (List ℚ)) ≠ [[1], [-3]] := by
  refine ⟨?_, ?_, ?_, ?_, ?_, ?_⟩ <;>
    norm_num [sumOfVec, sumOfMat, normalizeBySum, normalizeBySumMat]

/-- C14 (amended). `normalizeBySum` and `normalizeBySumMat` make no test of
the sum and raise no error. Whenever the sum of the argument is negative they
return normally: the shape is kept, every element has been divided by the
sum, the elements of the result add up to 1, and the argument has changed.
On the empty vector and the empty matrix they return normally and leave the
argument empty. -/
theorem normalizeBySum_no_check {R : Type} [LinearOrderedField R] :
    (∀ v : List R, sumOfVec v < 0 →
      (normalizeBySum v).length = v.length ∧
      (∀ i x, v.get? i = some x → (normalizeBySum v).get? i = some (x / sumOfVec v)) ∧
      sumOfVec (normalizeBySum v) = 1 ∧ normalizeBySum v ≠ v) ∧
    (∀ m : List (List R), sumOfMat m < 0 →
      (normalizeBySumMat m).length = m.length ∧
      (∀ i row, m.get? i = some row →
        (normalizeBySumMat m).get? i = some (row.map (fun x => x / sumOfMat m))) ∧
      sumOfMat (normalizeBySumMat m) = 1 ∧ normalizeBySumMat m ≠ m) ∧
    normalizeBySum ([] : List R) = [] ∧ normalizeBySumMat ([] : List (List R)) = [] := by
  refine ⟨?_, ?_, rfl, rfl⟩
  · intro v hneg
    have hsum := sumOfVec_normalizeBySum v (ne_of_lt hneg)
    refine ⟨by simp [normalizeBySum], ?_, hsum, ?_⟩
    · intro i x hx
      rw [normalizeBySum_get, hx]; rfl
    · intro heq
      rw [heq] at hsum
      rw [hsum] at hneg
      exact absurd hneg (by norm_num)
  · intro m hneg
    have hsum := sumOfMat_normalizeBySumMat m (ne_of_lt hneg)
    refine ⟨by simp [normalizeBySumMat], ?_, hsum, ?_⟩
    · intro i row hrow
      simp only [List.get?_eq_getElem?] at hrow ⊢
      simp [normalizeBySumMat, List.getElem?_map, hrow]
    · intro heq
      rw [heq] at hsum
      rw [hsum] at hneg
      exact absurd hneg (by norm_num)

/-! ## C15: tables with different numbers of loci -/

/-- C17 (counterexample). With `NDEBUG` defined and a PLAF table without any
chromosome, every chromosome (there is none) has at least one position, and
`finalize` completes with `indexOfChromStarts_ = [0]` while the total number
of loci is 0: the entry 0 is not smaller than the number of loci. -/
theorem finalize_starts_empty_table :
    ∃ st, PfDeconvIO_ctor true none none (fun _ => none)
        (fun _ => .ok { info_ := [], chrom_ := [], position_ := [] })
        ["-ref", "r.txt", "-alt", "a.txt", "-plaf", "p.txt", "-noPanel"] = .ok st ∧
      st.chrom_ = [] ∧ st.position_.length = st.chrom_.length ∧
      (∀ p ∈ st.position_, p ≠ []) ∧
      st.indexOfChromStarts_ = [0] ∧ st.nLoci_ = 0 ∧ totalPositions st.position_ = 0 ∧
      ¬ (∀ x ∈ st.indexOfChromStarts_, x < totalPositions st.position_) :=
  ⟨_, rfl, rfl, rfl, by intro p hp; exact absurd hp (List.not_mem_nil _), rfl, rfl, rfl,
    by decide⟩

/-- C17 (amended). Provided the PLAF table has at least one chromosome and
every chromosome has at least one position (one non-empty list of positions
per chromosome), and `finalize` is entered with `indexOfChromStarts_` empty:
the sequence that `finalize` builds has one entry per chromosome, is strictly
increasing, and every entry is smaller than the total number of positions;
building it never indexes `position_` outside its bounds, for `finalize`
either completes with that sequence or stops at one of its later assertions
with that sequence built. -/
theorem finalize_starts_increasing (NDEBUG : Bool)
    (readAtMarker : String → Except Err AtMarker)
    (st : PfDeconvIO) (tr ta tp : AtMarker)
    (href : readAtMarker st.refFileName_ = .ok tr)
    (halt : readAtMarker st.altFileName_ = .ok ta)
    (hplaf : readAtMarker st.plafFileName_ = .ok tp)
    (hfresh : st.indexOfChromStarts_ = [])
    (hne : tp.chrom_ ≠ [])
    (hwf : tp.position_.length = tp.chrom_.length)
    (hpos : ∀ p ∈ tp.position_, p ≠ []) :
    (builtStarts tp.position_ tp.chrom_.length).length = tp.chrom_.length ∧
    (builtStarts tp.position_ tp.chrom_.length).Pairwise (fun a b => a < b) ∧
    (∀ x ∈ builtStarts tp.position_ tp.chrom_.length, x < totalPositions tp.position_) ∧
    ((∃ st1, finalize NDEBUG readAtMarker st = .ok st1 ∧
        st1.indexOfChromStarts_ = builtStarts tp.position_ tp.chrom_.length ∧
        st1.chrom_ = tp.chrom_ ∧ st1.position_ = tp.position_) ∨
     (∃ s, finalize NDEBUG readAtMarker st = .error (.AssertionFailed, s) ∧
        s.indexOfChromStarts_ = builtStarts tp.position_ tp.chrom_.length)) := by
  -- the table is `p0 :: rest`, and the loop visits exactly `rest`
  obtain ⟨p0, rest, hp⟩ : ∃ p0 rest, tp.position_ = p0 :: rest := by
    cases hq : tp.position_ with
    | nil =>
      rw [hq] at hwf
      exact absurd (List.length_eq_zero.mp hwf.symm) hne
    | cons a l => exact ⟨a, l, rfl⟩
  have hn : tp.chrom_.length = rest.length + 1 := by rw [← hwf, hp]; rfl
  have hsizes : ((tp.position_.drop 1).take (tp.chrom_.length - 1)).map List.length
      = rest.map List.length := by
    rw [hp, hn]; simp
  have hbuilt : builtStarts tp.position_ tp.chrom_.length
      = 0 :: runningStarts 0 (rest.map List.length) := by
    rw [builtStarts, hsizes]
  have hge : ∀ s ∈ rest.map List.length, 1 ≤ s := by
    intro s hs
    obtain ⟨p, hpm, rfl⟩ := List.mem_map.mp hs
    have : p ≠ [] := hpos p (by rw [hp]; exact List.mem_cons_of_mem _ hpm)
    exact List.length_pos.mpr this
  have hp0 : 1 ≤ p0.length :=
    List.length_pos.mpr (hpos p0 (by rw [hp]; exact List.mem_cons_self _ _))
  have htotal : totalPositions tp.position_ = p0.length + (rest.map List.length).sum := by
    rw [totalPositions, hp]; simp
  have hlen : (builtStarts tp.position_ tp.chrom_.length).length = tp.chrom_.length := by
    rw [hbuilt, hn]; simp [runningStarts_length]
  refine ⟨hlen, ?_, ?_, ?_⟩
  · rw [hbuilt]
    exact runningStarts_increasing _ hge 0
  · intro x hx
    rw [hbuilt, List.mem_cons] at hx
    rw [htotal]
    rcases hx with rfl | hx
    · omega
    · have := (runningStarts_bounds _ hge 0 x hx).2
      omega
  · rw [finalize_eq NDEBUG readAtMarker st tr ta tp href halt hplaf hfresh
      (le_of_eq hwf.symm)]
    have h1 : ¬ ((NDEBUG || (builtStarts tp.position_ tp.chrom_.length).length
        == tp.chrom_.length) = false) := by
      simp [hlen]
    rw [if_neg h1]
    by_cases h2 : (NDEBUG || tr.info_.length == tp.info_.length) = false
    · rw [if_pos h2]; exact Or.inr ⟨_, rfl, rfl⟩
    · rw [if_neg h2]
      by_cases h3 : (NDEBUG || ta.info_.length == tr.info_.length) = false
      · rw [if_pos h3]; exact Or.inr ⟨_, rfl, rfl⟩
      · rw [if_neg h3]; exact Or.inl ⟨_, rfl, rfl, rfl, rfl⟩

/-- C17 (witness): the amended statement for a PLAF table with three
chromosomes of 2, 1 and 3 positions, with assertions enabled; the sequence
built is `[0, 1, 4]` and there are 6 positions. -/
theorem finalize_starts_increasing_witness :
    builtStarts [[100, 200], [300], [50, 60, 70]] 3 = [0, 1, 4] ∧
    ([0, 1, 4] : List Nat).Pairwise (fun a b => a < b) ∧
    (∀ x ∈ builtStarts [[100, 200], [300], [50, 60, 70]] 3,
      x < totalPositions [[100, 200], [300], [50, 60, 70]]) :=
  ⟨rfl,
    (finalize_starts_increasing false
      (fun _ => .ok { info_ := [1, 2, 3, 4, 5, 6], chrom_ := ["c1", "c2", "c3"],
                      position_ := [[100, 200], [300], [50, 60, 70]] })
      (init none none (fresh []))
      { info_ := [1, 2, 3, 4, 5, 6], chrom_ := ["c1", "c2", "c3"],
        position_ := [[100, 200], [300], [50, 60, 70]] }
      { info_ := [1, 2, 3, 4, 5, 6], chrom_ := ["c1", "c2", "c3"],
        position_ := [[100, 200], [300], [50, 60, 70]] }
      { info_ := [1, 2, 3, 4, 5, 6], chrom_ := ["c1", "c2", "c3"],
        position_ := [[100, 200], [300], [50, 60, 70]] }
      rfl rfl rfl rfl (by decide) rfl (by decide)).2.1,
    (finalize_starts_increasing false
      (fun _ => .ok { info_ := [1, 2, 3, 4, 5, 6], chrom_ := ["c1", "c2", "c3"],
                      position_ := [[100, 200], [300], [50, 60, 70]] })
      (init none none (fresh []))
      { info_ := [1, 2, 3, 4, 5, 6], chrom_ := ["c1", "c2", "c3"],
        position_ := [[100, 200], [300], [50, 60, 70]] }
      { info_ := [1, 2, 3, 4, 5, 6], chrom_ := ["c1", "c2", "c3"],
        position_ := [[100, 200], [300], [50, 60, 70]] }
      { info_ := [1, 2, 3, 4, 5, 6], chrom_ := ["c1", "c2", "c3"],
        position_ := [[100, 200], [300], [50, 60, 70]] }
      rfl rfl rfl rfl (by decide) rfl (by decide)).2.2.1⟩

/-! ## C18: `normalizeBySumMat` -/

/-- C18. For every matrix `M`, with rows of any lengths, such that
`sumOfMat(M) != 0`: `normalizeBySumMat` keeps the number of rows and the
length of each row, replaces every entry `M[i][j]` by `M[i][j] / sumOfMat(M)`,
and the result has `sumOfMat` equal to 1; and `sumOfMat(M)` is the sum over
the rows of `sumOfVec(row)`. -/
theorem normalizeBySumMat_spec {R : Type} [Field R] (M : List (List R))
    (hsum : sumOfMat M ≠ 0) :
    (normalizeBySumMat M).length = M.length ∧
    (∀ i row, M.get? i = some row →
      ∃ row1, (normalizeBySumMat M).get? i = some row1 ∧ row1.length = row.length ∧
        ∀ j x, row.get? j = some x → row1.get? j = some (x / sumOfMat M)) ∧
    sumOfMat (normalizeBySumMat M) = 1 ∧
    sumOfMat M = (M.map sumOfVec).sum := by
  refine ⟨by simp [normalizeBySumMat], ?_, sumOfMat_normalizeBySumMat M hsum,
    sumOfMat_eq_sum M⟩
  intro i row hrow
  refine ⟨row.map (fun x => x / sumOfMat M), ?_, by simp, ?_⟩
  · simp only [List.get?_eq_getElem?] at hrow ⊢
    simp [normalizeBySumMat, List.getElem?_map, hrow]
  · intro j x hx
    simp only [List.get?_eq_getElem?] at hx ⊢
    simp [List.getElem?_map, hx]

/-- C18 (witness): the statement applied to the ragged matrix `[[1], [2, 3]]`
of rationals, whose sum is 6. -/
theorem normalizeBySumMat_spec_witness :
    sumOfMat ([[1], [2, 3]] : List (List ℚ)) ≠ 0 ∧
    (normalizeBySumMat ([[1], [2, 3]] : List (List ℚ))).length = 2 ∧
    sumOfMat (normalizeBySumMat ([[1], [2, 3]] : List (List ℚ))) = 1 :=
  ⟨by norm_num [sumOfMat],
    (normalizeBySumMat_spec ([[1], [2, 3]] : List (List ℚ))
      (by norm_num [sumOfMat])).1,
    (normalizeBySumMat_spec ([[1], [2, 3]] : List (List ℚ))
      (by norm_num [sumOfMat])).2.2.1⟩

/-! ## C19: `calcLLKs` -/

/-- C19. For every `firstIndex` and `length` with `firstIndex + length` not
exceeding the sizes of `refCount`, `altCount` and `expectedWsaf`, and
`expectedWsaf[j] >= 0` on the range: also with assertions enabled, `calcLLKs`
returns normally (its assertion never fires) a vector of exactly `length`
entries whose entry `i` is `calcLLK` of the three inputs at
`firstIndex + i` with the default `err` and `fac`; the three input vectors
are unchanged; and the returned vector is the same for all inputs that agree
with these on `[firstIndex, firstIndex + length)`, so nothing outside that
range is read. -/
theorem calcLLKs_spec {R : Type} [LinearOrderedField R] (NDEBUG : Bool)
    (logBeta : R → R → R) (refCount altCount expectedWsaf : List R)
    (firstIndex length : Nat)
    (href : firstIndex + length ≤ refCount.length)
    (halt : firstIndex + length ≤ altCount.length)
    (hwsaf : firstIndex + length ≤ expectedWsaf.length)
    (hnonneg : ∀ j w, firstIndex ≤ j → j < firstIndex + length →
      expectedWsaf.get? j = some w → 0 ≤ w) :
    ∃ out, calcLLKs NDEBUG logBeta refCount altCount expectedWsaf firstIndex length
        = .ok out ∧
      out.tmpLLKs.length = length ∧
      (∀ i, i < length → ∃ r a w,
        refCount.get? (firstIndex + i) = some r ∧
        altCount.get? (firstIndex + i) = some a ∧
        expectedWsaf.get? (firstIndex + i) = some w ∧
        out.tmpLLKs.get? i = some (calcLLK logBeta r a w defaultErr defaultFac)) ∧
      out.refCount = refCount ∧ out.altCount = altCount ∧
      out.expectedWsaf = expectedWsaf ∧
      (∀ refCount1 altCount1 expectedWsaf1 : List R,
        (∀ j, firstIndex ≤ j → j < firstIndex + length →
          refCount1.get? j = refCount.get? j ∧ altCount1.get? j = altCount.get? j ∧
          expectedWsaf1.get? j = expectedWsaf.get? j) →
        ∃ out1, calcLLKs NDEBUG logBeta refCount1 altCount1 expectedWsaf1 firstIndex
            length = .ok out1 ∧ out1.tmpLLKs = out.tmpLLKs) := by
  have hin : ∀ k, k < length → ∃ r a w,
      refCount.get? (firstIndex + k) = some r ∧
      altCount.get? (firstIndex + k) = some a ∧
      expectedWsaf.get? (firstIndex + k) = some w ∧ (NDEBUG = true ∨ 0 ≤ w) := by
    intro k hk
    have h1 : firstIndex + k < refCount.length := by omega
    have h2 : firstIndex + k < altCount.length := by omega
    have h3 : firstIndex + k < expectedWsaf.length := by omega
    refine ⟨refCount[firstIndex + k], altCount[firstIndex + k],
      expectedWsaf[firstIndex + k], ?_, ?_, ?_, Or.inr ?_⟩
    · simp [List.get?_eq_getElem?, List.getElem?_eq_getElem h1]
    · simp [List.get?_eq_getElem?, List.getElem?_eq_getElem h2]
    · simp [List.get?_eq_getElem?, List.getElem?_eq_getElem h3]
    · exact hnonneg (firstIndex + k) _ (by omega) (by omega)
        (by simp [List.get?_eq_getElem?, List.getElem?_eq_getElem h3])
  obtain ⟨out, hout, h1, h2, h3, h4, h5⟩ := calcLLKs_ok NDEBUG logBeta refCount altCount
    expectedWsaf firstIndex length hin
  refine ⟨out, hout, h4, h5, h1, h2, h3, ?_⟩
  intro refCount1 altCount1 expectedWsaf1 hagree
  have hin1 : ∀ k, k < length → ∃ r a w,
      refCount1.get? (firstIndex + k) = some r ∧
      altCount1.get? (firstIndex + k) = some a ∧
      expectedWsaf1.get? (firstIndex + k) = some w ∧ (NDEBUG = true ∨ 0 ≤ w) := by
    intro k hk
    obtain ⟨r, a, w, hr, ha, hw, hor⟩ := hin k hk
    obtain ⟨e1, e2, e3⟩ := hagree (firstIndex + k) (by omega) (by omega)
    exact ⟨r, a, w, by rw [e1, hr], by rw [e2, ha], by rw [e3, hw], hor⟩
  obtain ⟨out1, hout1, -, -, -, g4, g5⟩ := calcLLKs_ok NDEBUG logBeta refCount1
    altCount1 expectedWsaf1 firstIndex length hin1
  refine ⟨out1, hout1, ?_⟩
  apply List.ext_get?
  intro k
  by_cases hk : k < length
  · obtain ⟨r, a, w, hr, ha, hw, hv⟩ := h5 k hk
    obtain ⟨r1, a1, w1, hr1, ha1, hw1, hv1⟩ := g5 k hk
    obtain ⟨e1, e2, e3⟩ := hagree (firstIndex + k) (by omega) (by omega)
    rw [e1, hr] at hr1
    rw [e2, ha] at ha1
    rw [e3, hw] at hw1
    obtain rfl := Option.some.inj hr1
    obtain rfl := Option.some.inj ha1
    obtain rfl := Option.some.inj hw1
    rw [hv, hv1]
  · rw [List.get?_eq_none.mpr (by omega), List.get?_eq_none.mpr (by omega)]

/-- C19 (witness): the statement for the range `[1, 3)` of three vectors of
four rationals, with `x * y` in place of `logBeta` and assertions enabled. -/
theorem calcLLKs_spec_witness :
    1 + 2 ≤ ([1, 2, 3, 4] : List ℚ).length ∧
    ∃ out, calcLLKs false (fun x y : ℚ => x * y) [1, 2, 3, 4] [0, 1, 0, 1]
        [0, 1 / 2, 1, 1 / 4] 1 2 = .ok out ∧
      out.tmpLLKs.length = 2 ∧ out.refCount = [1, 2, 3, 4] := by
  obtain ⟨out, h1, h2, -, h3, -⟩ := calcLLKs_spec false (fun x y : ℚ => x * y)
    [1, 2, 3, 4] [0, 1, 0, 1] [0, 1 / 2, 1, 1 / 4] 1 2 (by simp) (by simp) (by simp)
    (by
      intro j w hj1 hj2 hw
      have hj : j = 1 ∨ j = 2 := by omega
      rcases hj with rfl | rfl
      · simp at hw; rw [← hw]; norm_num
      · simp at hw; rw [← hw]; norm_num)
  exact ⟨by simp, out, h1, h2, h3⟩

/-! ## C20: swapping the alleles -/

/-- The product of two doubles does not depend on their order. -/
theorem Double.mul_comm (x y : Double) : Double.mul x y = Double.mul y x := by
  cases x with
  | none => cases y <;> rfl
  | some a =>
    cases y with
    | none => rfl
    | some b => simp only [Double.mul, Int.mul_comm a.m b.m, Int.add_comm a.e b.e]

set_option maxRecDepth 20000

/-- C20 (counterexample). In `double` arithmetic, with the product of doubles
(a symmetric function) in place of `logBeta`, and `err = 0.01`, `fac = 100`:
`calcLLK(3, 5, 0.3)` is `7990370901373744 * 2^-44` (454.1999999999998) and
`calcLLK(5, 3, 1 - 0.3)` is `7990370901373752 * 2^-44` (454.2000000000003),
so the two results differ. -/
theorem calcLLK_double_swap_differs :
    (∀ x y : Double, Double.mul x y = Double.mul y x) ∧
    calcLLK_double Double.mul (Double.lit 3 1) (Double.lit 5 1) (Double.lit 3 10)
        (Double.lit 1 100) (Double.lit 100 1)
      = some { m := 7990370901373744, e := -44 } ∧
    calcLLK_double Double.mul (Double.lit 5 1) (Double.lit 3 1)
        (Double.sub (Double.lit 1 1) (Double.lit 3 10)) (Double.lit 1 100) (Double.lit 100 1)
      = some { m := 7990370901373752, e := -44 } ∧
    calcLLK_double Double.mul (Double.lit 3 1) (Double.lit 5 1) (Double.lit 3 10)
        (Double.lit 1 100) (Double.lit 100 1)
      ≠ calcLLK_double Double.mul (Double.lit 5 1) (Double.lit 3 1)
        (Double.sub (Double.lit 1 1) (Double.lit 3 10)) (Double.lit 1 100)
        (Double.lit 100 1) :=
  ⟨Double.mul_comm, by decide, by decide, by decide⟩

/-- C20 (amended). Over exact arithmetic (any field, in particular the reals
and the rationals): if `logBeta(x, y) = logBeta(y, x)` for all `x` and `y`,
then for every `ref`, `alt`, `w`, `err` and `fac`,
`calcLLK(ref, alt, w, err, fac) = calcLLK(alt, ref, 1 - w, err, fac)`: the
error adjustment of `1 - w` is one minus the error adjustment of `w`. -/
theorem calcLLK_allele_swap {R : Type} [Field R] (logBeta : R → R → R)
    (hsymm : ∀ x y, logBeta x y = logBeta y x) (ref alt w err fac : R) :
    calcLLK logBeta ref alt w err fac = calcLLK logBeta alt ref (1 - w) err fac ∧
    (1 - w) + err * (1 - 2 * (1 - w)) = 1 - (w + err * (1 - 2 * w)) := by
  have hadj : (1 - w) + err * (1 - 2 * (1 - w)) = 1 - (w + err * (1 - 2 * w)) := by ring
  refine ⟨?_, hadj⟩
  simp only [calcLLK]
  rw [hadj, sub_sub_cancel,
    hsymm (ref + (1 - (w + err * (1 - 2 * w))) * fac) (alt + (w + err * (1 - 2 * w)) * fac),
    hsymm ((1 - (w + err * (1 - 2 * w))) * fac) ((w + err * (1 - 2 * w)) * fac)]

/-- C20 (witness): the amended statement for the symmetric function `x * y` in place
of `logBeta`, at `ref = 3`, `alt = 5`, `w = 1/4`, `err = 1/100`, `fac = 100`
over the rationals. -/
theorem calcLLK_allele_swap_witness :
    (∀ x y : ℚ, (fun a b => a * b) x y = (fun a b => a * b) y x) ∧
    calcLLK (fun a b : ℚ => a * b) 3 5 (1 / 4) (1 / 100) 100
      = calcLLK (fun a b : ℚ => a * b) 5 3 (1 - 1 / 4) (1 / 100) 100 :=
  ⟨fun x y => mul_comm x y,
    (calcLLK_allele_swap (fun a b : ℚ => a * b) (fun x y => mul_comm x y)
      3 5 (1 / 4) (1 / 100) 100).1⟩

end PfDeconv
